import Mathlib

/-!
Verification of the arxiv-daily fetch/merge/prune/render pipeline
(`arxiv-daily.py`), shallowly embedded in Lean.

Python strings are modelled as `List Char` (`Str`), Python dicts as
insertion-ordered association lists (`List (Str × α)`): writing to an
existing key overwrites the value in place, writing a fresh key appends
the pair at the end, exactly as CPython dicts behave.  File contents are
modelled by `FileContent` (missing file / empty file / parsed JSON store).
Dates are modelled as year-month-day triples; `datetime.date` comparison
is lexicographic on those components.
-/

abbrev Str := List Char

/-- Whitespace as recognised by Python's `str.strip`. -/
def isSpaceChar (c : Char) : Bool :=
  c == ' ' || c == '\t' || c == '\n' || c == '\r' || c == '\x0b' || c == '\x0c'

/-- Python `s.lstrip()`. -/
def pyLStrip (s : Str) : Str := s.dropWhile isSpaceChar

/-- Python `s.rstrip()`. -/
def pyRStrip (s : Str) : Str := (s.reverse.dropWhile isSpaceChar).reverse

/-- Python `s.strip()`. -/
def pyStrip (s : Str) : Str := pyRStrip (pyLStrip s)

/-- Python `s.replace('**', '')`: remove non-overlapping occurrences of
the two-star marker, scanning left to right. -/
def removeBB : Str → Str
  | [] => []
  | [c] => [c]
  | c1 :: c2 :: rest =>
    if c1 = '*' ∧ c2 = '*' then removeBB rest else c1 :: removeBB (c2 :: rest)

/-- Whether `'**'` occurs as a substring (Python `'**' in s`). -/
def hasBB : Str → Bool
  | c1 :: c2 :: rest => (c1 == '*' && c2 == '*') || hasBB (c2 :: rest)
  | _ => false

/-- Python `s.split(sep)` for a one-character separator: always returns
at least one (possibly empty) piece. -/
def splitOnChar (sep : Char) : Str → List Str
  | [] => [[]]
  | c :: rest =>
    if c = sep then [] :: splitOnChar sep rest
    else
      match splitOnChar sep rest with
      | p :: ps => (c :: p) :: ps
      | [] => [[c]]

/-- Python `s.find(ch)` for a one-character needle, as an `Option`
(Python returns `-1` for `none`). -/
def strFind (ch : Char) : Str → Option Nat
  | [] => none
  | c :: rest => if c = ch then some 0 else (strFind ch rest).map (· + 1)

/-- Membership test on a list of strings (Python `in`). -/
def memStr (k : Str) : List Str → Bool
  | [] => false
  | a :: rest => if a = k then true else memStr k rest

/-- Lookup in an insertion-ordered dict (Python `d[k]` / `d.get(k)`). -/
def dGet {α : Type} : List (Str × α) → Str → Option α
  | [], _ => none
  | p :: d, k => if p.1 = k then some p.2 else dGet d k

/-- Key-membership in a dict (Python `k in d`). -/
def dHasKey {α : Type} (d : List (Str × α)) (k : Str) : Bool :=
  (dGet d k).isSome

/-- Python `d[k] = v`: overwrite in place if the key exists, else append. -/
def dInsert {α : Type} (d : List (Str × α)) (k : Str) (v : α) : List (Str × α) :=
  if dHasKey d k then d.map (fun p => if p.1 = k then (p.1, v) else p)
  else d ++ [(k, v)]

/-- Python `d.update(other)`: a sequence of `d[k] = v` writes in
`other`'s iteration order. -/
def dUpdate {α : Type} (d other : List (Str × α)) : List (Str × α) :=
  other.foldl (fun acc p => dInsert acc p.1 p.2) d

abbrev EntryDict := List (Str × Str)
abbrev Store := List (Str × EntryDict)

/-- Total number of stored rows: `sum(len(papers) for papers in m.values())`. -/
def existingCount (m : Store) : Nat := (m.map (fun p => p.2.length)).sum

/-- Row stored for entry key `k` of topic `t`, if any. -/
def getEntry (m : Store) (t k : Str) : Option Str :=
  match dGet m t with
  | none => none
  | some c => dGet c k

/-- Content of topic `t`, defaulting to the empty dict. -/
def ctn (m : Store) (t : Str) : EntryDict := (dGet m t).getD []

/-- Source `get_authors(authors, last_author)`: full comma-joined list, or
`authors[-1] if authors else ""`. -/
def get_authors (authors : List Str) (lastAuthor : Bool) : Str :=
  if !lastAuthor then List.intercalate (", ".toList) authors
  else
    match authors with
    | [] => []
    | a :: rest => ((a :: rest).getLast?).getD []

/-- Source key extraction: `ver_pos = paper_id.find('v')`; the id is kept
whole when there is no `'v'`, otherwise truncated at the first `'v'`. -/
def paperKeyOf (pid : Str) : Str :=
  match strFind 'v' pid with
  | none => pid
  | some i => pid.take i

/-- Modelled from the spec (the wording of section 3, "Entry Key"): strip
an optional trailing version suffix `vN` (a `'v'` followed by one or more
digits at the end of the id), used to compare against the code's
`paperKeyOf`. -/
def specStripVersion (pid : Str) : Str :=
  let revDigits := pid.reverse.takeWhile Char.isDigit
  if revDigits ≠ [] ∧ (pid.reverse.drop revDigits.length).head? = some 'v' then
    pid.take (pid.length - revDigits.length - 1)
  else pid

/-- Publication dates (`datetime.date` values): year, month, day. -/
structure PDate where
  y : Nat
  m : Nat
  d : Nat
deriving DecidableEq

/-- Comparison of `datetime.date` values is lexicographic on (y, m, d). -/
def pdateLt (a b : PDate) : Bool :=
  a.y < b.y || (a.y = b.y && (a.m < b.m || (a.m = b.m && a.d < b.d)))

def digitChar (n : Nat) : Char := Char.ofNat (48 + n)

/-- Decimal digits of `n`, most significant first, via structural fuel. -/
def natStrAux : Nat → Nat → Str → Str
  | 0, _, acc => acc
  | fuel + 1, n, acc =>
    let acc' := digitChar (n % 10) :: acc
    if n < 10 then acc' else natStrAux fuel (n / 10) acc'

def natStr (n : Nat) : Str := natStrAux (n + 1) n []

def padZero (w : Nat) (s : Str) : Str := List.replicate (w - s.length) '0' ++ s

/-- Python `str(date)`: ISO `YYYY-MM-DD` with zero padding. -/
def dateStr (dt : PDate) : Str :=
  padZero 4 (natStr dt.y) ++ '-' :: (padZero 2 (natStr dt.m) ++ '-' :: padZero 2 (natStr dt.d))

/-- Characters that are "clean" for row parsing: not whitespace, not the
field delimiter, not the emphasis marker.  All digits are clean. -/
def cleanChar (c : Char) : Bool := !isSpaceChar c && !(c == '|') && !(c == '*')

/-- One provider result, with the fields the fetch loop reads
(`get_short_id`, `title`, `authors`, `published.date()`, `categories`,
`comment`, `summary`). -/
structure ArxivResult where
  shortId : Str
  title : Str
  authors : List Str
  published : PDate
  categories : List Str
  comment : Option Str
  summary : Str
deriving DecidableEq

def newlineToSpace (s : Str) : Str := s.map (fun c => if c = '\n' then ' ' else c)

/-- Category field of the row: `"; ".join(categories) if categories else ""`. -/
def catsOf (r : ArxivResult) : Str :=
  if r.categories.isEmpty then [] else List.intercalate ("; ".toList) r.categories

/-- Formatted Row built by the fetch loop for one result:
`"|**{date}**|**{title}**|{last_author}|{categories}|[{key}]({url})|{comments}|\n"`,
with an extra abstract field before the final bar when abstracts are
shown (`"...|{comments}|{abstract}|\n"`).  Written with the string
literals expanded to character lists. -/
def formatRow (r : ArxivResult) (showAbstract : Bool) : Str :=
  let paperKey := paperKeyOf r.shortId
  let paperUrl := "http://arxiv.org/abs/".toList ++ paperKey
  let lastAuthor := get_authors r.authors true
  let commentsStr := match r.comment with | none => [] | some c => c
  let abstractStr := pyStrip (newlineToSpace r.summary)
  let body := '|' :: '*' :: '*' ::
    (dateStr r.published ++ '*' :: '*' :: '|' :: '*' :: '*' ::
      (r.title ++ '*' :: '*' :: '|' ::
        (lastAuthor ++ '|' ::
          (catsOf r ++ '|' :: '[' ::
            (paperKey ++ ']' :: '(' ::
              (paperUrl ++ ')' :: '|' :: commentsStr))))))
  if showAbstract then body ++ '|' :: (abstractStr ++ ['|', '\n'])
  else body ++ ['|', '\n']

/-- One event of the provider's lazy result iterator: either a yielded
result or an exception raised while fetching. -/
inductive StreamItem where
  | result (r : ArxivResult)
  | err
deriving DecidableEq

/-- Body of the `try` block of `get_daily_papers`: process results until
the iterator is exhausted or raises; the Bool records whether the
`except` handler ran. -/
def fetchTry (showAbstract : Bool) : EntryDict → List StreamItem → EntryDict × Bool
  | content, [] => (content, false)
  | content, .result r :: rest =>
    fetchTry showAbstract
      (dInsert content (paperKeyOf r.shortId) (formatRow r showAbstract)) rest
  | content, .err :: _ => (content, true)

/-- Source `get_daily_papers`: returns `{topic: content}` both on normal
completion and out of the `except` handler (the error is logged, never
re-raised). -/
def get_daily_papers (topic : Str) (stream : List StreamItem) (showAbstract : Bool) : Store :=
  let run := fetchTry showAbstract [] stream
  [(topic, run.1)]

/-- Results the provider yielded before raising (the whole stream when no
error occurs). -/
def yieldedResults (stream : List StreamItem) : List ArxivResult :=
  (stream.takeWhile fun i => match i with | .result _ => true | .err => false).filterMap
    fun i => match i with | .result r => some r | .err => none

/-- Content dict obtained by formatting a list of results in order. -/
def buildContent (showAbstract : Bool) (rs : List ArxivResult) : EntryDict :=
  rs.foldl (fun c r => dInsert c (paperKeyOf r.shortId) (formatRow r showAbstract)) []

/-- A tiny concrete provider result used in counterexamples. -/
def sampleResult : ArxivResult :=
  { shortId := "1".toList, title := "T".toList, authors := [],
    published := ⟨2024, 1, 2⟩, categories := [], comment := none, summary := [] }

/-- A provider result whose title contains the `'|'` field delimiter. -/
def barTitleResult : ArxivResult :=
  { shortId := "1".toList, title := "a|b".toList, authors := ["Au".toList],
    published := ⟨2024, 1, 2⟩, categories := ["cs.RO".toList], comment := none,
    summary := [] }

/-- A provider result whose text fields are free of delimiter and
emphasis characters. -/
def cleanResult : ArxivResult :=
  { shortId := "2108.09112v2".toList, title := "T one".toList, authors := ["Au".toList],
    published := ⟨2024, 1, 2⟩, categories := ["cs.RO".toList, "cs.AI".toList],
    comment := some "c".toList, summary := [] }

/-- Lexicographic (code-point) string comparison, Python `s <= t`. -/
def strLe : Str → Str → Bool
  | [], _ => true
  | _ :: _, [] => false
  | a :: as, b :: bs => if a < b then true else if b < a then false else strLe as bs

/-- Stable insert used to model Python's stable `list.sort`. -/
def sortInsert (le : Str → Str → Bool) (x : Str) : List Str → List Str
  | [] => [x]
  | y :: ys => if le y x then y :: sortInsert le x ys else x :: y :: ys

/-- Stable sort by `le` (insertion sort; Python's sort is stable, so its
result is exactly the stable order determined by the comparison). -/
def stableSort (le : Str → Str → Bool) (l : List Str) : List Str :=
  l.foldl (fun acc x => sortInsert le x acc) []

/-- Source `sort_papers`: `keys = list(papers.keys()); keys.sort(reverse=True)`
and rebuild the dict in that key order.  Note the sort key is the paper
KEY (arXiv id), not the date inside the row. -/
def sort_papers (papers : EntryDict) : EntryDict :=
  let keys := stableSort (fun a b => strLe b a) (papers.map Prod.fst)
  keys.map (fun k => (k, (dGet papers k).getD []))

/-- Entry emission order of `json_to_md`: topics in store order, empty
topics skipped, each topic's entries in `sort_papers` order; emitted as
(topic, key, row) triples. -/
def json_to_md_rows (data : Store) : List (Str × Str × Str) :=
  (data.map (fun p =>
    if p.2.isEmpty then []
    else (sort_papers p.2).map (fun q => (p.1, q.1, q.2)))).flatten

/-- Date field as the styled renderer parses it from a stored row:
`parts = v.strip().split('|'); parts[1].replace('**', '').strip()`. -/
def json_to_md_date (v : Str) : Str :=
  pyStrip (removeBB (List.getD (splitOnChar '|' (pyStrip v)) 1 []))

/-- Styled-renderer parse of one stored row: split the stripped row on
`'|'`; when at least 7 fields result, the date is field 1 with `'**'`
removed then stripped, the title field 2 likewise, and the categories
field 4 stripped (both the abstract and the no-abstract branch of the
source read these three fields identically). -/
def json_to_md_parse (v : Str) : Option (Str × Str × Str) :=
  if 7 ≤ (splitOnChar '|' (pyStrip v)).length then
    some (pyStrip (removeBB ((splitOnChar '|' (pyStrip v)).getD 1 [])),
      pyStrip (removeBB ((splitOnChar '|' (pyStrip v)).getD 2 [])),
      pyStrip ((splitOnChar '|' (pyStrip v)).getD 4 []))
  else none

/-- A store exercising the renderer's ordering: the lexicographically
larger entry key carries the older publish date. -/
def c2store : Store :=
  [("topic".toList,
    [("b".toList, "|**2024-01-01**|**Old**|A|cs.RO|[b](u)|c|\n".toList),
     ("a".toList, "|**2024-03-01**|**New**|A|cs.RO|[a](u)|c|\n".toList)])]

def charVal (c : Char) : Nat := c.toNat - 48

/-- Month alternative of CPython's `_strptime` regex for `%m`:
`1[0-2]|0[1-9]|[1-9]`, tried left to right. -/
def parseMonth : Str → Option (Nat × Str)
  | '1' :: c :: rest =>
    if c = '0' ∨ c = '1' ∨ c = '2' then some (10 + charVal c, rest)
    else some (1, c :: rest)
  | '0' :: c :: rest => if '1' ≤ c ∧ c ≤ '9' then some (charVal c, rest) else none
  | c :: rest => if '1' ≤ c ∧ c ≤ '9' then some (charVal c, rest) else none
  | [] => none

/-- Day alternative of CPython's `_strptime` regex for `%d`:
`3[01]|[12]\d|0[1-9]|[1-9]`, tried left to right. -/
def parseDay : Str → Option (Nat × Str)
  | '3' :: c :: rest =>
    if c = '0' ∨ c = '1' then some (30 + charVal c, rest) else some (3, c :: rest)
  | '1' :: c :: rest => if c.isDigit then some (10 + charVal c, rest) else some (1, c :: rest)
  | '2' :: c :: rest => if c.isDigit then some (20 + charVal c, rest) else some (2, c :: rest)
  | '0' :: c :: rest => if '1' ≤ c ∧ c ≤ '9' then some (charVal c, rest) else none
  | c :: rest => if '1' ≤ c ∧ c ≤ '9' then some (charVal c, rest) else none
  | [] => none

def isLeapYear (y : Nat) : Bool := y % 4 = 0 ∧ (y % 100 ≠ 0 ∨ y % 400 = 0)

def daysInMonth (y m : Nat) : Nat :=
  if m = 2 then (if isLeapYear y then 29 else 28)
  else if m = 4 ∨ m = 6 ∨ m = 9 ∨ m = 11 then 30
  else 31

/-- Python `datetime.datetime.strptime(s, '%Y-%m-%d').date()` as a total
function: exactly four year digits, a dash, the `%m` and `%d` regex
alternatives, end of input, and `datetime.date` range validation; any
failure (caught as an exception in the source) is `none`. -/
def parseYMDdate (s : Str) : Option PDate :=
  match s with
  | y1 :: y2 :: y3 :: y4 :: '-' :: rest =>
    if y1.isDigit ∧ y2.isDigit ∧ y3.isDigit ∧ y4.isDigit then
      let y := ((charVal y1 * 10 + charVal y2) * 10 + charVal y3) * 10 + charVal y4
      match parseMonth rest with
      | some (m, '-' :: rest2) =>
        match parseDay rest2 with
        | some (d, []) =>
          if 1 ≤ y ∧ d ≤ daysInMonth y m then some ⟨y, m, d⟩ else none
        | _ => none
      | _ => none
    else none
  | _ => none

/-- Source `parse_date_from_content`: take the second `|`-delimited
field, strip it, drop `'**'` markers, and parse as `YYYY-MM-DD`;
`None` when anything fails. -/
def parse_date_from_content (pc : Str) : Option PDate :=
  if '|' ∈ pc then
    let parts := splitOnChar '|' pc
    if 3 ≤ parts.length then parseYMDdate (removeBB (pyStrip (parts.getD 1 [])))
    else none
  else none

/-- State of a JSON store file: absent, present with empty content, or
present with a parsed store. -/
inductive FileContent where
  | missing
  | empty
  | stored (m : Store)
deriving DecidableEq

/-- In-memory transformation of `cleanup_old_papers`: per topic, keep an
entry iff its parsed date is `None` or not before the cutoff. -/
def cleanupStore (data : Store) (cutoff : PDate) : Store :=
  data.map (fun p => (p.1, p.2.filter (fun q =>
    match parse_date_from_content q.2 with
    | none => true
    | some dt => !pdateLt dt cutoff)))

/-- Source `cleanup_old_papers(filename, keep_days)`.  `cutoff` stands
for the value `datetime.datetime.now().date() - timedelta(days=keep_days)`
computed from the ambient clock.  Returns `(papers_before, papers_after)`
and the resulting file state; reading a missing file raises (`none`).
When `keep_days <= 0` the function returns `(0, 0)` before touching the
file. -/
def cleanup_old_papers (file : FileContent) (cutoff : PDate) (keepDays : Int) :
    Option (Nat × Nat × FileContent) :=
  if keepDays ≤ 0 then some (0, 0, file)
  else
    match file with
    | .missing => none
    | .empty => some (0, 0, .empty)
    | .stored data =>
      let result := cleanupStore data cutoff
      some (existingCount data, existingCount result, .stored result)

/-- Source `remove_old_keywords`: delete every topic whose name is not a
configured keyword; the net effect of the deletion loop is a filter that
preserves order.  Also returns topic → removed-entry-count. -/
def remove_old_keywords (json_data : Store) (keywords : List Str) : Store × List (Str × Nat) :=
  (json_data.filter (fun p => memStr p.1 keywords),
   (json_data.filter (fun p => !(memStr p.1 keywords))).map (fun p => (p.1, p.2.length)))

/-- Running state of `update_json_file`'s update loop: the store being
built, `new_papers_count`, and `category_updates`. -/
structure UpdRes where
  json : Store
  newPapers : Nat
  catUpdates : List (Str × Nat)
deriving DecidableEq

/-- One iteration of `update_json_file`'s update loop for a
`(keyword, papers)` pair: count the batch, then replace (clearing),
merge (existing topic; `category_updates` only records a strictly
positive post-merge key-count delta), or insert the topic wholesale. -/
def updStep (clear : Bool) (st : UpdRes) (kv : Str × EntryDict) : UpdRes :=
  let st1 : UpdRes := { st with newPapers := st.newPapers + kv.2.length }
  if dHasKey st1.json kv.1 then
    if clear then
      { st1 with json := dInsert st1.json kv.1 kv.2,
                 catUpdates := dInsert st1.catUpdates kv.1 kv.2.length }
    else
      let beforeCount := (ctn st1.json kv.1).length
      let merged := dUpdate (ctn st1.json kv.1) kv.2
      let added := merged.length - beforeCount
      { st1 with json := dInsert st1.json kv.1 merged,
                 catUpdates := if added > 0 then dInsert st1.catUpdates kv.1 added
                               else st1.catUpdates }
  else
    { st1 with json := dInsert st1.json kv.1 kv.2,
               catUpdates := dInsert st1.catUpdates kv.1 kv.2.length }

/-- Return value of `update_json_file`:
`(existing_count, updated_count, new_papers_count, category_updates)`
plus the store written back to the file. -/
structure UpdOut where
  existing : Nat
  updated : Nat
  newPapers : Nat
  catUpdates : List (Str × Nat)
  json : Store
deriving DecidableEq

/-- Source `update_json_file(filename, data_dict, current_keywords,
clear_existing)`: with `clear_existing` the file is not read; otherwise a
missing file raises (`none`) and empty content is an empty store.  When
not clearing and the existing count is positive, stale topics are
removed, then every `(keyword, papers)` pair of every batch dict is
merged in iteration order. -/
def update_json_file (file : FileContent) (data_dict : List Store) (keywords : List Str)
    (clear : Bool) : Option UpdOut :=
  let read : Option (Store × Nat) :=
    if clear then some ([], 0)
    else
      match file with
      | .missing => none
      | .empty => some ([], 0)
      | .stored m => some (m, existingCount m)
  match read with
  | none => none
  | some (m, existing) =>
    let json0 := if clear = false ∧ 0 < existing then (remove_old_keywords m keywords).1
                 else m
    let res := data_dict.foldl (fun st data => data.foldl (updStep clear) st)
      { json := json0, newPapers := 0, catUpdates := [] }
    some { existing := existing, updated := existingCount res.json,
           newPapers := res.newPapers, catUpdates := res.catUpdates, json := res.json }

/-- Store read by `update_json_file` after stale-topic removal (the
`clear_existing = false` path). -/
def json0Of (m : Store) (kws : List Str) : Store :=
  if 0 < existingCount m then (remove_old_keywords m kws).1 else m

/-- Content batches written to topic `t` by the flattened update loop. -/
def writesTo (t : Str) (L : List (Str × EntryDict)) : List EntryDict :=
  L.filterMap (fun p => if p.1 = t then some p.2 else none)

/-- Store component of the non-clearing update loop. -/
def storeFold (j : Store) (L : List (Str × EntryDict)) : Store :=
  L.foldl (fun j kv =>
    if dHasKey j kv.1 then dInsert j kv.1 (dUpdate (ctn j kv.1) kv.2)
    else dInsert j kv.1 kv.2) j

/-- Value left in place for key `k` after the write list `w` runs over a
dict whose current value for `k` is `v`. -/
def finalVal {α : Type} (w : List (Str × α)) (k : Str) (v : α) : α :=
  w.foldl (fun acc p => if p.1 = k then p.2 else acc) v

/-- Index of the last occurrence of `ch` in a string. -/
def lastIdxOf (ch : Char) : Str → Option Nat
  | [] => none
  | c :: rest =>
    match lastIdxOf ch rest with
    | some i => some (i + 1)
    | none => if c = ch then some 0 else none

/-- Decomposition performed by `re.search(r"\$.*\$", s)`: the match
starts at the first `'$'` that has a later `'$'` on the same line
(`.` does not cross a newline) and extends greedily to the last such
`'$'`; the result is `(before, inner, after)` —
`s[:start]`, `match.group()[1:-1]`, `s[end:]` — or `none` when the
pattern does not match. -/
def splitMathSpan : Str → Option (Str × Str × Str)
  | [] => none
  | c :: rest =>
    if c = '$' then
      match lastIdxOf '$' (rest.takeWhile (fun x => !(x == '\n'))) with
      | some k => some ([], rest.take k, rest.drop (k + 1))
      | none => (splitMathSpan rest).map (fun t => (c :: t.1, t.2.1, t.2.2))
    else (splitMathSpan rest).map (fun t => (c :: t.1, t.2.1, t.2.2))

/-- Space inserted next to a math span, as a function of the adjacent
boundary character (`none` at a string end): a single space unless the
span sits at the boundary, next to whitespace, or next to `'*'`. -/
def spaceToken (o : Option Char) : Str :=
  match o with
  | some c => if ¬ isSpaceChar c ∧ ¬ c = '*' then [' '] else []
  | none => []

/-- Source `pretty_math`: when the string holds an inline math span,
trim the span's interior and insert a single space on each side of the
span unless the string ends/starts there, the adjacent character is
whitespace, or the adjacent character is `'*'`. -/
def pretty_math (s : Str) : Str :=
  match splitMathSpan s with
  | none => s
  | some (b, inner, a) =>
    let spaceBefore : Str :=
      match b.getLast? with
      | some c => if ¬ isSpaceChar c ∧ ¬ c = '*' then [' '] else []
      | none => []
    let spaceAfter : Str :=
      match a.head? with
      | some c => if ¬ isSpaceChar c ∧ ¬ c = '*' then [' '] else []
      | none => []
    b ++ spaceBefore ++ '$' :: (pyStrip inner ++ '$' :: (spaceAfter ++ a))

theorem strFind_eq_none {ch : Char} {s : Str} (h : ch ∉ s) : strFind ch s = none := by
  induction s with
  | nil => rfl
  | cons c rest ih =>
    have hc : ¬ c = ch := by rintro rfl; exact h (List.mem_cons_self _ _)
    have hr : ch ∉ rest := fun hm => h (List.mem_cons_of_mem _ hm)
    simp [strFind, hc, ih hr]

theorem strFind_append_cons {base tail : Str} (h : 'v' ∉ base) :
    strFind 'v' (base ++ 'v' :: tail) = some base.length := by
  induction base with
  | nil => simp [strFind]
  | cons c rest ih =>
    have hc : ¬ c = 'v' := by rintro rfl; exact h (List.mem_cons_self _ _)
    have hr : 'v' ∉ rest := fun hm => h (List.mem_cons_of_mem _ hm)
    simp [strFind, hc, ih hr]

/-- C10: `get_authors` returns the empty string for an empty authors list
in both modes; the last-author branch is guarded (`authors[-1] if authors
else ""`) and never indexes into an empty list. -/
theorem get_authors_empty_list :
    get_authors [] true = [] ∧ get_authors [] false = [] := by
  constructor <;> rfl

/-- C6 counterexample: an id whose archive name itself contains a `'v'`.
The code truncates at the first `'v'` of the whole id, so
`"solv-int/9403001v1"` is mapped to `"sol"`, while stripping the trailing
version suffix (the claim's description) yields `"solv-int/9403001"`. -/
theorem paperKey_not_version_strip :
    paperKeyOf "solv-int/9403001v1".toList = "sol".toList ∧
    specStripVersion "solv-int/9403001v1".toList = "solv-int/9403001".toList ∧
    paperKeyOf "solv-int/9403001v1".toList ≠
      specStripVersion "solv-int/9403001v1".toList := by
  refine ⟨by decide, by decide, by decide⟩

/-- C6 (amended): the entry key is the part of the id before its first
`'v'` (the whole id when it has none).  For ids whose only `'v'` starts
the trailing version suffix this agrees with suffix-stripping, and the
two concrete ids of the claim behave as stated. -/
theorem paperKey_truncates_at_first_v :
    (∀ base tail : Str, 'v' ∉ base →
        paperKeyOf (base ++ 'v' :: tail) = base) ∧
    (∀ pid : Str, 'v' ∉ pid → paperKeyOf pid = pid) ∧
    paperKeyOf "2108.09112v2".toList = "2108.09112".toList ∧
    paperKeyOf "2108.09112".toList = "2108.09112".toList := by
  refine ⟨?_, ?_, by decide, by decide⟩
  · intro base tail h
    simp [paperKeyOf, strFind_append_cons h, List.take_left]
  · intro pid h
    simp [paperKeyOf, strFind_eq_none h]

/-- C6 witness: the amended general statement applied to the concrete id
`"2108.09112v2"` (base `"2108.09112"`, suffix `"v2"`). -/
theorem paperKey_truncates_at_first_v_witness :
    paperKeyOf ("2108.09112".toList ++ 'v' :: "2".toList) = "2108.09112".toList :=
  paperKey_truncates_at_first_v.1 "2108.09112".toList "2".toList (by decide)

/-- C3 counterexample: the provider yields one result and then raises.
The handler catches the error, but the returned mapping for the topic
holds the one already-formatted entry, not zero entries. -/
theorem get_daily_papers_error_not_empty :
    (fetchTry false [] [StreamItem.result sampleResult, StreamItem.err]).2 = true ∧
    (ctn (get_daily_papers "t".toList [StreamItem.result sampleResult, StreamItem.err] false)
        "t".toList).length = 1 := by
  constructor <;> decide

/-- C3 (amended): a provider error never propagates out of
`get_daily_papers` — the function always returns `{topic: content}` —
and the topic's mapping holds exactly the entries formatted from the
results yielded before the error; when the error precedes the first
result the mapping is empty. -/
theorem get_daily_papers_swallows_error (topic : Str) (stream : List StreamItem) (sa : Bool) :
    get_daily_papers topic stream sa = [(topic, buildContent sa (yieldedResults stream))] ∧
    (stream.head? = some StreamItem.err → get_daily_papers topic stream sa = [(topic, [])]) := by
  have h1 : ∀ (st : List StreamItem) (c : EntryDict),
      (fetchTry sa c st).1 = (yieldedResults st).foldl
        (fun c r => dInsert c (paperKeyOf r.shortId) (formatRow r sa)) c := by
    intro st
    induction st with
    | nil => intro c; rfl
    | cons i rest ih =>
      intro c
      cases i with
      | result r =>
        have hy : yieldedResults (StreamItem.result r :: rest) = r :: yieldedResults rest := rfl
        rw [hy, List.foldl_cons]
        exact ih _
      | err => rfl
  constructor
  · show [(topic, (fetchTry sa [] stream).1)] = _
    rw [h1 stream []]
    rfl
  · intro h
    cases stream with
    | nil => simp at h
    | cons i rest =>
      cases i with
      | result r => simp at h
      | err => rfl

/-- C3 witness: with the error as the very first stream event, the topic
maps to the empty content dict. -/
theorem get_daily_papers_swallows_error_witness :
    get_daily_papers "t".toList [StreamItem.err] false = [("t".toList, [])] :=
  (get_daily_papers_swallows_error "t".toList [StreamItem.err] false).2 rfl

theorem dGet_map_val {α β : Type} (g : α → β) (m : List (Str × α)) (k : Str) :
    dGet (m.map (fun p => (p.1, g p.2))) k = (dGet m k).map g := by
  induction m with
  | nil => rfl
  | cons p rest ih =>
    by_cases h : p.1 = k
    · simp [dGet, h]
    · simp [dGet, h, ih]

/-- C5: `cleanup_old_papers` is a no-op returning `(0, 0)` when
`keep_days <= 0`; otherwise an entry of the stored data is dropped
exactly when its parsed date (second `|` field, stripped, `'**'` removed,
parsed as `YYYY-MM-DD`) is strictly before the cutoff
`today - keep_days`; unparsable dates are always kept. -/
theorem cleanup_old_papers_spec :
    (∀ (file : FileContent) (cutoff : PDate) (kd : Int), kd ≤ 0 →
      cleanup_old_papers file cutoff kd = some (0, 0, file)) ∧
    (∀ (data : Store) (cutoff : PDate) (kd : Int), 0 < kd →
      cleanup_old_papers (.stored data) cutoff kd =
        some (existingCount data, existingCount (cleanupStore data cutoff),
          .stored (cleanupStore data cutoff)) ∧
      ∀ t c, dGet data t = some c →
        ∃ c', dGet (cleanupStore data cutoff) t = some c' ∧
          ∀ q, q ∈ c' ↔ q ∈ c ∧ (parse_date_from_content q.2 = none ∨
            ∃ dt, parse_date_from_content q.2 = some dt ∧ pdateLt dt cutoff = false)) := by
  constructor
  · intro file cutoff kd h
    simp [cleanup_old_papers, h]
  · intro data cutoff kd h
    have hneg : ¬ kd ≤ 0 := by omega
    constructor
    · simp [cleanup_old_papers, hneg]
    · intro t c hc
      refine ⟨c.filter (fun q =>
        match parse_date_from_content q.2 with
        | none => true
        | some dt => !pdateLt dt cutoff), ?_, ?_⟩
      · rw [cleanupStore, dGet_map_val, hc]
        rfl
      · intro q
        rw [List.mem_filter]
        cases hp : parse_date_from_content q.2 with
        | none => simp [hp]
        | some dt => simp [hp]

/-- C5 witness: with `keep_days = -3` the function leaves a concrete
stored file untouched and reports `(0, 0)`. -/
theorem cleanup_old_papers_spec_witness :
    cleanup_old_papers (.stored c2store) ⟨2024, 1, 1⟩ (-3) =
      some (0, 0, .stored c2store) :=
  cleanup_old_papers_spec.1 (.stored c2store) ⟨2024, 1, 1⟩ (-3) (by decide)

/-- C9: the pruner never removes a topic key (the result has exactly the
same topic-key sequence) and every kept entry is an unmodified
(key, row) pair of the original topic content; when `keep_days <= 0`
the whole file state is returned unchanged. -/
theorem cleanup_old_papers_preserves_topics :
    (∀ (data : Store) (cutoff : PDate) (kd : Int), 0 < kd →
      ∃ res, cleanup_old_papers (.stored data) cutoff kd =
          some (existingCount data, existingCount res, .stored res) ∧
        res.map Prod.fst = data.map Prod.fst ∧
        (∀ t c', dGet res t = some c' →
          ∃ c, dGet data t = some c ∧ ∀ q ∈ c', q ∈ c)) ∧
    (∀ (file : FileContent) (cutoff : PDate) (kd : Int), kd ≤ 0 →
      cleanup_old_papers file cutoff kd = some (0, 0, file)) := by
  constructor
  · intro data cutoff kd h
    have hneg : ¬ kd ≤ 0 := by omega
    refine ⟨cleanupStore data cutoff, by simp [cleanup_old_papers, hneg], ?_, ?_⟩
    · simp [cleanupStore]
    · intro t c' hc'
      rw [cleanupStore, dGet_map_val] at hc'
      cases hc : dGet data t with
      | none => rw [hc] at hc'; simp at hc'
      | some c =>
        rw [hc] at hc'
        have hcc := Option.some_inj.mp hc'
        refine ⟨c, rfl, ?_⟩
        intro q hq
        rw [← hcc] at hq
        exact (List.mem_filter.mp hq).1
  · intro file cutoff kd h
    simp [cleanup_old_papers, h]

/-- C9 witness: the pruner applied to a concrete stored file with
`keep_days = 0` returns it unchanged. -/
theorem cleanup_old_papers_preserves_topics_witness :
    cleanup_old_papers (.stored c2store) ⟨2024, 2, 1⟩ 0 =
      some (0, 0, .stored c2store) :=
  cleanup_old_papers_preserves_topics.2 (.stored c2store) ⟨2024, 2, 1⟩ 0 (by decide)

/-- C2: the renderer sorts each topic by descending entry KEY, not by the
row's date field (contradicting `sort_papers`' own docstring "Sort papers
by date in descending order").  On `c2store` the rendered order puts the
`2024-01-01` row before the `2024-03-01` row, although the former's date
string is lexicographically smaller. -/
theorem json_to_md_orders_by_key_not_date :
    (json_to_md_rows c2store).map (fun e => json_to_md_date e.2.2) =
      ["2024-01-01".toList, "2024-03-01".toList] ∧
    strLe "2024-01-01".toList "2024-03-01".toList = true ∧
    "2024-01-01".toList ≠ "2024-03-01".toList := by
  refine ⟨by decide, by decide, by decide⟩

theorem pyLStrip_cons_no_space {c : Char} (x : Str) (h : isSpaceChar c = false) :
    pyLStrip (c :: x) = c :: x := by
  simp [pyLStrip, List.dropWhile_cons, h]

theorem pyRStrip_bar_nl (y : Str) : pyRStrip (y ++ ['|', '\n']) = y ++ ['|'] := by
  have h1 : (y ++ ['|', '\n']).reverse = '\n' :: '|' :: y.reverse := by simp
  rw [pyRStrip, h1, List.dropWhile_cons, if_pos (by decide), List.dropWhile_cons,
    if_neg (by decide)]
  simp

theorem pyLStrip_eq_self {t : Str} (h : ∀ c ∈ t, isSpaceChar c = false) :
    pyLStrip t = t := by
  cases t with
  | nil => rfl
  | cons c rest => simp [pyLStrip, List.dropWhile_cons, h c (List.mem_cons_self _ _)]

theorem pyRStrip_eq_self {t : Str} (h : ∀ c ∈ t, isSpaceChar c = false) :
    pyRStrip t = t := by
  cases hrev : t.reverse with
  | nil =>
    have ht : t = [] := by simpa using congrArg List.reverse hrev
    subst ht; rfl
  | cons c rest =>
    have hc : c ∈ t := by
      have : c ∈ t.reverse := by rw [hrev]; exact List.mem_cons_self _ _
      simpa using this
    rw [pyRStrip, hrev, List.dropWhile_cons]
    simp [h c hc, ← hrev]

theorem pyStrip_eq_self {t : Str} (h : ∀ c ∈ t, isSpaceChar c = false) :
    pyStrip t = t := by
  rw [pyStrip, pyLStrip_eq_self h, pyRStrip_eq_self h]

theorem splitOnChar_length_pos (sep : Char) (s : Str) :
    0 < (splitOnChar sep s).length := by
  cases s with
  | nil => simp [splitOnChar]
  | cons c rest =>
    by_cases hc : c = sep
    · simp [splitOnChar, hc]
    · cases h : splitOnChar sep rest with
      | nil => simp [splitOnChar, hc, h]
      | cons p ps => simp [splitOnChar, hc, h]

theorem splitOnChar_append_cons (sep : Char) {a : Str} (rest : Str) (h : sep ∉ a) :
    splitOnChar sep (a ++ sep :: rest) = a :: splitOnChar sep rest := by
  induction a with
  | nil => simp [splitOnChar]
  | cons c a' ih =>
    have hc : ¬ c = sep := by rintro rfl; exact h (List.mem_cons_self _ _)
    have h' : sep ∉ a' := fun hm => h (List.mem_cons_of_mem _ hm)
    rw [List.cons_append]
    simp [splitOnChar, hc, ih h']

theorem splitOnChar_length_two (sep : Char) (x y : Str) :
    2 ≤ (splitOnChar sep (x ++ sep :: y)).length := by
  induction x with
  | nil =>
    have := splitOnChar_length_pos sep y
    simp [splitOnChar]
    omega
  | cons c x' ih =>
    rw [List.cons_append]
    by_cases hc : c = sep
    · have := splitOnChar_length_pos sep (x' ++ sep :: y)
      simp [splitOnChar, hc]
      omega
    · cases h : splitOnChar sep (x' ++ sep :: y) with
      | nil =>
        have := splitOnChar_length_pos sep (x' ++ sep :: y)
        rw [h] at this
        simp at this
      | cons p ps =>
        rw [h] at ih
        simp [splitOnChar, hc, h]
        simp at ih
        omega

theorem removeBB_trailing {t : Str} (h : hasBB t = false) :
    removeBB (t ++ ['*', '*']) = t := by
  induction t with
  | nil => decide
  | cons c rest ih =>
    cases rest with
    | nil =>
      by_cases hc : c = '*'
      · subst hc; decide
      · simp [removeBB, hc]
    | cons d rest' =>
      have hsplit : ¬ (c = '*' ∧ d = '*') ∧ hasBB (d :: rest') = false := by
        have h' := h
        simp [hasBB, Bool.or_eq_false_iff] at h'
        constructor
        · rintro ⟨rfl, rfl⟩
          simp at h'
        · exact h'.2
      rw [List.cons_append]
      simp only [removeBB]
      rw [if_neg hsplit.1]
      exact congrArg (c :: ·) (ih hsplit.2)

theorem hasBB_of_no_star {t : Str} (h : ∀ c ∈ t, ¬ c = '*') : hasBB t = false := by
  induction t with
  | nil => rfl
  | cons c rest ih =>
    cases rest with
    | nil => rfl
    | cons d rest' =>
      have hc : ¬ c = '*' := h c (List.mem_cons_self _ _)
      have hrest : ∀ e ∈ d :: rest', ¬ e = '*' := fun e he => h e (List.mem_cons_of_mem _ he)
      simp [hasBB, hc, ih hrest]

theorem digitChar_clean {k : Nat} (h : k < 10) : cleanChar (digitChar k) = true := by
  interval_cases k <;> decide

theorem natStrAux_clean (fuel : Nat) :
    ∀ (n : Nat) (acc : Str), (∀ c ∈ acc, cleanChar c = true) →
      ∀ c ∈ natStrAux fuel n acc, cleanChar c = true := by
  induction fuel with
  | zero => intro n acc hacc c hc; exact hacc c hc
  | succ f ih =>
    intro n acc hacc c hc
    have hacc' : ∀ c ∈ digitChar (n % 10) :: acc, cleanChar c = true := by
      intro e he
      rcases List.mem_cons.mp he with he | he
      · subst he; exact digitChar_clean (Nat.mod_lt _ (by omega))
      · exact hacc e he
    rw [natStrAux] at hc
    by_cases h10 : n < 10
    · simp only [h10, if_true] at hc
      exact hacc' c hc
    · simp only [h10, if_false] at hc
      exact ih (n / 10) _ hacc' c hc

theorem natStr_clean (n : Nat) : ∀ c ∈ natStr n, cleanChar c = true :=
  natStrAux_clean (n + 1) n [] (by intro c hc; simp at hc)

theorem padZero_clean {s : Str} (w : Nat) (h : ∀ c ∈ s, cleanChar c = true) :
    ∀ c ∈ padZero w s, cleanChar c = true := by
  intro c hc
  rcases List.mem_append.mp hc with hc | hc
  · have := List.eq_of_mem_replicate hc
    subst this; decide
  · exact h c hc

theorem dateStr_clean (dt : PDate) : ∀ c ∈ dateStr dt, cleanChar c = true := by
  intro c hc
  rw [dateStr] at hc
  rcases List.mem_append.mp hc with hc | hc
  · exact padZero_clean 4 (natStr_clean dt.y) c hc
  · rcases List.mem_cons.mp hc with hc | hc
    · subst hc; decide
    · rcases List.mem_append.mp hc with hc | hc
      · exact padZero_clean 2 (natStr_clean dt.m) c hc
      · rcases List.mem_cons.mp hc with hc | hc
        · subst hc; decide
        · exact padZero_clean 2 (natStr_clean dt.d) c hc

theorem cleanChar_no_bar {t : Str} (h : ∀ c ∈ t, cleanChar c = true) : '|' ∉ t := by
  intro hm
  exact absurd (h _ hm) (by decide)

theorem cleanChar_no_star {t : Str} (h : ∀ c ∈ t, cleanChar c = true) :
    ∀ c ∈ t, ¬ c = '*' := by
  intro c hc hceq
  subst hceq
  exact absurd (h _ hc) (by decide)

theorem cleanChar_no_space {t : Str} (h : ∀ c ∈ t, cleanChar c = true) :
    ∀ c ∈ t, isSpaceChar c = false := by
  intro c hc
  have h' := h c hc
  simp [cleanChar, Bool.and_eq_true] at h'
  exact h'.1.1

theorem json_to_md_parse_shape (f1 f2 f3 f4 x y : Str)
    (h1 : '|' ∉ f1) (h2 : '|' ∉ f2) (h3 : '|' ∉ f3) (h4 : '|' ∉ f4) :
    json_to_md_parse
        ('|' :: (f1 ++ '|' :: (f2 ++ '|' :: (f3 ++ '|' :: (f4 ++ '|' ::
          (x ++ '|' :: (y ++ ['|', '\n']))))))) =
      some (pyStrip (removeBB f1), pyStrip (removeBB f2), pyStrip f4) := by
  have hw : '|' :: (f1 ++ '|' :: (f2 ++ '|' :: (f3 ++ '|' :: (f4 ++ '|' ::
        (x ++ '|' :: (y ++ ['|', '\n'])))))) =
      ('|' :: (f1 ++ '|' :: (f2 ++ '|' :: (f3 ++ '|' :: (f4 ++ '|' ::
        (x ++ '|' :: y)))))) ++ ['|', '\n'] := by
    simp [List.append_assoc]
  have hstrip : pyStrip ('|' :: (f1 ++ '|' :: (f2 ++ '|' :: (f3 ++ '|' :: (f4 ++ '|' ::
        (x ++ '|' :: (y ++ ['|', '\n']))))))) =
      '|' :: (f1 ++ '|' :: (f2 ++ '|' :: (f3 ++ '|' :: (f4 ++ '|' ::
        (x ++ '|' :: (y ++ ['|'])))))) := by
    rw [pyStrip, pyLStrip_cons_no_space _ (by decide), hw, pyRStrip_bar_nl]
    simp [List.append_assoc]
  have e0 : splitOnChar '|' ('|' :: (f1 ++ '|' :: (f2 ++ '|' :: (f3 ++ '|' :: (f4 ++ '|' ::
        (x ++ '|' :: (y ++ ['|']))))))) =
      [] :: splitOnChar '|' (f1 ++ '|' :: (f2 ++ '|' :: (f3 ++ '|' :: (f4 ++ '|' ::
        (x ++ '|' :: (y ++ ['|'])))))) := by
    simp [splitOnChar]
  have hsplit : splitOnChar '|' ('|' :: (f1 ++ '|' :: (f2 ++ '|' :: (f3 ++ '|' :: (f4 ++ '|' ::
        (x ++ '|' :: (y ++ ['|']))))))) =
      [] :: f1 :: f2 :: f3 :: f4 :: splitOnChar '|' (x ++ '|' :: (y ++ ['|'])) := by
    rw [e0, splitOnChar_append_cons _ _ h1, splitOnChar_append_cons _ _ h2,
      splitOnChar_append_cons _ _ h3, splitOnChar_append_cons _ _ h4]
  have hcond : 7 ≤ ([] :: f1 :: f2 :: f3 :: f4 ::
      splitOnChar '|' (x ++ '|' :: (y ++ ['|']))).length := by
    have := splitOnChar_length_two '|' x (y ++ ['|'])
    simp only [List.length_cons]
    omega
  rw [json_to_md_parse, hstrip, hsplit, if_pos hcond]
  rfl

theorem formatRow_roundtrip (r : ArxivResult) (sa : Bool)
    (ht1 : '|' ∉ r.title) (ht2 : hasBB r.title = false) (ht3 : pyStrip r.title = r.title)
    (ha : '|' ∉ get_authors r.authors true)
    (hc1 : '|' ∉ catsOf r) (hc2 : pyStrip (catsOf r) = catsOf r) :
    json_to_md_parse (formatRow r sa) = some (dateStr r.published, r.title, catsOf r) := by
  have hdc := dateStr_clean r.published
  have hstar2 : ('|' : Char) ∉ ['*', '*'] := by decide
  have hf1 : '|' ∉ '*' :: '*' :: (dateStr r.published ++ ['*', '*']) := by
    intro hm
    rcases List.mem_cons.mp hm with hm | hm
    · exact absurd hm (by decide)
    · rcases List.mem_cons.mp hm with hm | hm
      · exact absurd hm (by decide)
      · rcases List.mem_append.mp hm with hm | hm
        · exact cleanChar_no_bar hdc hm
        · exact hstar2 hm
  have hf2 : '|' ∉ '*' :: '*' :: (r.title ++ ['*', '*']) := by
    intro hm
    rcases List.mem_cons.mp hm with hm | hm
    · exact absurd hm (by decide)
    · rcases List.mem_cons.mp hm with hm | hm
      · exact absurd hm (by decide)
      · rcases List.mem_append.mp hm with hm | hm
        · exact ht1 hm
        · exact hstar2 hm
  have hd1 : pyStrip (removeBB ('*' :: '*' :: (dateStr r.published ++ ['*', '*']))) =
      dateStr r.published := by
    have hh : removeBB ('*' :: '*' :: (dateStr r.published ++ ['*', '*'])) =
        removeBB (dateStr r.published ++ ['*', '*']) := by
      simp [removeBB]
    rw [hh, removeBB_trailing (hasBB_of_no_star (cleanChar_no_star hdc)),
      pyStrip_eq_self (cleanChar_no_space hdc)]
  have hd2 : pyStrip (removeBB ('*' :: '*' :: (r.title ++ ['*', '*']))) = r.title := by
    have hh : removeBB ('*' :: '*' :: (r.title ++ ['*', '*'])) =
        removeBB (r.title ++ ['*', '*']) := by
      simp [removeBB]
    rw [hh, removeBB_trailing ht2, ht3]
  cases sa with
  | false =>
    have hshape : formatRow r false =
        '|' :: (('*' :: '*' :: (dateStr r.published ++ ['*', '*'])) ++ '|' ::
          (('*' :: '*' :: (r.title ++ ['*', '*'])) ++ '|' ::
            (get_authors r.authors true ++ '|' ::
              (catsOf r ++ '|' ::
                (('[' :: (paperKeyOf r.shortId ++ ']' :: '(' ::
                    ("http://arxiv.org/abs/".toList ++ paperKeyOf r.shortId ++ [')']))) ++ '|' ::
                  ((match r.comment with | none => [] | some c => c) ++ ['|', '\n'])))))) := by
      simp [formatRow, List.append_assoc]
    rw [hshape, json_to_md_parse_shape _ _ _ _ _ _ hf1 hf2 ha hc1, hd1, hd2, hc2]
  | true =>
    have hshape : formatRow r true =
        '|' :: (('*' :: '*' :: (dateStr r.published ++ ['*', '*'])) ++ '|' ::
          (('*' :: '*' :: (r.title ++ ['*', '*'])) ++ '|' ::
            (get_authors r.authors true ++ '|' ::
              (catsOf r ++ '|' ::
                (('[' :: (paperKeyOf r.shortId ++ ']' :: '(' ::
                    ("http://arxiv.org/abs/".toList ++ paperKeyOf r.shortId ++ [')']))) ++ '|' ::
                  (((match r.comment with | none => [] | some c => c) ++
                    '|' :: pyStrip (newlineToSpace r.summary)) ++ ['|', '\n'])))))) := by
      simp [formatRow, List.append_assoc]
    rw [hshape, json_to_md_parse_shape _ _ _ _ _ _ hf1 hf2 ha hc1, hd1, hd2, hc2]

/-- C7 counterexample: a record whose title contains the `'|'` delimiter.
The styled renderer parses the stored row back into title `"a"` and
categories `"Au"` (the author field), not the record's title `"a|b"` and
categories `"cs.RO"`: the round trip fails. -/
theorem formatRow_roundtrip_bar_title :
    json_to_md_parse (formatRow barTitleResult false) =
      some ("2024-01-02".toList, "a".toList, "Au".toList) ∧
    json_to_md_parse (formatRow barTitleResult false) ≠
      some (dateStr barTitleResult.published, barTitleResult.title, catsOf barTitleResult) := by
  constructor <;> decide

/-- C7 witness: the round-trip theorem applied to a concrete clean record
(title `"T one"`, categories `"cs.RO; cs.AI"`). -/
theorem formatRow_roundtrip_witness :
    json_to_md_parse (formatRow cleanResult false) =
      some (dateStr cleanResult.published, cleanResult.title, catsOf cleanResult) :=
  formatRow_roundtrip cleanResult false (by decide) (by decide) (by decide) (by decide)
    (by decide) (by decide)

theorem lastIdxOf_eq_none {ch : Char} {s : Str} (h : ch ∉ s) : lastIdxOf ch s = none := by
  induction s with
  | nil => rfl
  | cons c rest ih =>
    have hc : ¬ c = ch := by rintro rfl; exact h (List.mem_cons_self _ _)
    have hr : ch ∉ rest := fun hm => h (List.mem_cons_of_mem _ hm)
    simp [lastIdxOf, ih hr, hc]

theorem lastIdxOf_append_last {i z : Str} (hi : '$' ∉ i) (hz : '$' ∉ z) :
    lastIdxOf '$' (i ++ '$' :: z) = some i.length := by
  induction i with
  | nil => simp [lastIdxOf, lastIdxOf_eq_none hz]
  | cons c i' ih =>
    have hi' : '$' ∉ i' := fun hm => hi (List.mem_cons_of_mem _ hm)
    rw [List.cons_append]
    simp [lastIdxOf, ih hi']

theorem takeWhile_all_append {p : Char → Bool} {l1 : Str} (l2 : Str)
    (h : ∀ c ∈ l1, p c = true) :
    List.takeWhile p (l1 ++ l2) = l1 ++ List.takeWhile p l2 := by
  induction l1 with
  | nil => rfl
  | cons c l1' ih =>
    rw [List.cons_append, List.takeWhile_cons, h c (List.mem_cons_self _ _), if_pos rfl,
      ih (fun e he => h e (List.mem_cons_of_mem _ he)), List.cons_append]

theorem splitMathSpan_decomp (b i a : Str) (hb : '$' ∉ b) (hi : '$' ∉ i) (ha : '$' ∉ a)
    (hn : '\n' ∉ i) :
    splitMathSpan (b ++ '$' :: (i ++ '$' :: a)) = some (b, i, a) := by
  induction b with
  | nil =>
    have htake : (i ++ '$' :: a).takeWhile (fun x => !(x == '\n')) =
        i ++ '$' :: a.takeWhile (fun x => !(x == '\n')) := by
      have h1 : ∀ c ∈ i, (!(c == '\n')) = true := by
        intro c hc
        have : ¬ c = '\n' := by rintro rfl; exact hn hc
        simp [this]
      rw [takeWhile_all_append _ h1, List.takeWhile_cons]
      simp
    have hsub : '$' ∉ a.takeWhile (fun x => !(x == '\n')) := by
      intro hm
      exact ha ((List.takeWhile_sublist _).subset hm)
    have hlast : lastIdxOf '$' ((i ++ '$' :: a).takeWhile (fun x => !(x == '\n'))) =
        some i.length := by
      rw [htake]
      exact lastIdxOf_append_last hi hsub
    have htk : (i ++ '$' :: a).take i.length = i := by
      simp
    have hdr : (i ++ '$' :: a).drop (i.length + 1) = a := by
      have h1 : i ++ '$' :: a = (i ++ ['$']) ++ a := by simp
      have h2 : i.length + 1 = (i ++ ['$']).length := by simp
      rw [h1, h2, List.drop_left]
    simp only [List.nil_append, splitMathSpan, if_pos rfl, hlast, htk, hdr]
    simp
  | cons c b' ih =>
    have hc : ¬ c = '$' := by rintro rfl; exact hb (List.mem_cons_self _ _)
    have hb' : '$' ∉ b' := fun hm => hb (List.mem_cons_of_mem _ hm)
    rw [List.cons_append]
    simp [splitMathSpan, hc, ih hb']

theorem spaceToken_cases (o : Option Char) : spaceToken o = [] ∨ spaceToken o = [' '] := by
  cases o with
  | none => left; rfl
  | some c =>
    rw [spaceToken]
    by_cases h : ¬ isSpaceChar c ∧ ¬ c = '*'
    · right; rw [if_pos h]
    · left; rw [if_neg h]

theorem spaceToken_eq_space_iff (o : Option Char) :
    spaceToken o = [' '] ↔ ∃ c, o = some c ∧ isSpaceChar c = false ∧ ¬ c = '*' := by
  cases o with
  | none => simp [spaceToken]
  | some c =>
    by_cases h : ¬ isSpaceChar c ∧ ¬ c = '*'
    · obtain ⟨h1, h2⟩ := h
      have h1' : isSpaceChar c = false := by simpa using h1
      simp [spaceToken, h1', h2]
    · rw [spaceToken, if_neg h]
      constructor
      · intro habs
        exact absurd habs (by decide)
      · rintro ⟨c', hceq, hsp, hst⟩
        rw [Option.some_inj] at hceq
        subst hceq
        exact absurd ⟨by simp [hsp], hst⟩ h

/-- C8: on a string consisting of text, a single inline `$...$` math
span, and text — no other `'$'` anywhere and no newline inside the
span — `pretty_math` trims the whitespace inside the delimiters and
inserts a single space on each side of the span exactly when the span
touches adjacent text whose boundary character is neither whitespace nor
the `'*'` emphasis marker. -/
theorem pretty_math_spec (b i a : Str) (hb : '$' ∉ b) (hi : '$' ∉ i) (ha : '$' ∉ a)
    (hn : '\n' ∉ i) :
    ∃ sb sa : Str,
      pretty_math (b ++ '$' :: (i ++ '$' :: a)) =
        b ++ sb ++ '$' :: (pyStrip i ++ '$' :: (sa ++ a)) ∧
      (sb = [] ∨ sb = [' ']) ∧
      (sb = [' '] ↔ ∃ c, b.getLast? = some c ∧ isSpaceChar c = false ∧ ¬ c = '*') ∧
      (sa = [] ∨ sa = [' ']) ∧
      (sa = [' '] ↔ ∃ c, a.head? = some c ∧ isSpaceChar c = false ∧ ¬ c = '*') := by
  have hsms := splitMathSpan_decomp b i a hb hi ha hn
  refine ⟨spaceToken b.getLast?, spaceToken a.head?, ?_, spaceToken_cases _,
    spaceToken_eq_space_iff _, spaceToken_cases _, spaceToken_eq_space_iff _⟩
  rw [pretty_math, hsms]
  rfl

/-- C8 witness: the three example behaviours from the claim —
`"result$x+1$end"` gains single spaces, an already-spaced input is
unchanged, input adjacent to `'**'` gains none — plus the general
theorem instantiated at `"result" / "x+1" / "end"`. -/
theorem pretty_math_spec_witness :
    pretty_math "result$x+1$end".toList = "result $x+1$ end".toList ∧
    pretty_math "a $x+1$ b".toList = "a $x+1$ b".toList ∧
    pretty_math "**$x+1$**".toList = "**$x+1$**".toList ∧
    (∃ sb sa : Str,
      pretty_math ("result".toList ++ '$' :: ("x+1".toList ++ '$' :: "end".toList)) =
        "result".toList ++ sb ++ '$' :: (pyStrip "x+1".toList ++ '$' :: (sa ++ "end".toList)) ∧
      (sb = [] ∨ sb = [' ']) ∧
      (sb = [' '] ↔ ∃ c, "result".toList.getLast? = some c ∧ isSpaceChar c = false ∧ ¬ c = '*') ∧
      (sa = [] ∨ sa = [' ']) ∧
      (sa = [' '] ↔ ∃ c, "end".toList.head? = some c ∧ isSpaceChar c = false ∧ ¬ c = '*')) :=
  ⟨by decide, by decide, by decide,
    pretty_math_spec "result".toList "x+1".toList "end".toList (by decide) (by decide)
      (by decide) (by decide)⟩

theorem dGet_append {α : Type} (d e : List (Str × α)) (k : Str) :
    dGet (d ++ e) k = match dGet d k with | some v => some v | none => dGet e k := by
  induction d with
  | nil => rfl
  | cons p d' ih =>
    by_cases h : p.1 = k
    · simp [dGet, h]
    · simp [dGet, h, ih]

theorem dGet_eq_none_iff {α : Type} {d : List (Str × α)} {k : Str} :
    dGet d k = none ↔ ∀ p ∈ d, ¬ p.1 = k := by
  induction d with
  | nil => simp [dGet]
  | cons p d' ih =>
    rw [dGet]
    by_cases h : p.1 = k
    · rw [if_pos h]
      constructor
      · intro habs
        exact absurd habs (by simp)
      · intro hall
        exact absurd h (hall p (List.mem_cons_self _ _))
    · rw [if_neg h, ih]
      constructor
      · intro hall q hq
        rcases List.mem_cons.mp hq with hq | hq
        · subst hq; exact h
        · exact hall q hq
      · intro hall q hq
        exact hall q (List.mem_cons_of_mem _ hq)

theorem dGet_mem {α : Type} {d : List (Str × α)} {k : Str} {v : α} (h : dGet d k = some v) :
    (k, v) ∈ d := by
  induction d with
  | nil => simp [dGet] at h
  | cons p d' ih =>
    by_cases hp : p.1 = k
    · rw [dGet, if_pos hp] at h
      have hv := Option.some_inj.mp h
      obtain ⟨p1, p2⟩ := p
      rw [← hp, ← hv]
      exact List.mem_cons_self _ _
    · rw [dGet, if_neg hp] at h
      exact List.mem_cons_of_mem _ (ih h)

theorem nodup_dGet {α : Type} {d : List (Str × α)} (hnd : (d.map Prod.fst).Nodup)
    {q : Str × α} (hq : q ∈ d) : dGet d q.1 = some q.2 := by
  induction d with
  | nil => simp at hq
  | cons p d' ih =>
    rcases List.mem_cons.mp hq with hq | hq
    · subst hq
      simp [dGet]
    · have hne : ¬ p.1 = q.1 := by
        intro he
        have h1 : q.1 ∈ d'.map Prod.fst := List.mem_map_of_mem _ hq
        exact (List.nodup_cons.mp hnd).1 (he ▸ h1)
      rw [dGet, if_neg hne]
      exact ih (List.nodup_cons.mp hnd).2 hq

theorem dHasKey_iff_mem_keys {α : Type} {d : List (Str × α)} {k : Str} :
    dHasKey d k = true ↔ k ∈ d.map Prod.fst := by
  induction d with
  | nil => simp [dHasKey, dGet]
  | cons p d' ih =>
    by_cases h : p.1 = k
    · rw [List.map_cons]
      constructor
      · intro _
        exact List.mem_cons.mpr (Or.inl h.symm)
      · intro _
        rw [dHasKey, dGet, if_pos h]
        rfl
    · simp only [dHasKey, dGet, if_neg h, List.map_cons, List.mem_cons]
      rw [← dHasKey]
      rw [ih]
      constructor
      · exact Or.inr
      · rintro (he | he)
        · exact absurd he.symm h
        · exact he

theorem dGet_mapOverwrite_self {α : Type} {d : List (Str × α)} {k : Str} (v : α)
    (h : dHasKey d k = true) :
    dGet (d.map (fun p => if p.1 = k then (p.1, v) else p)) k = some v := by
  induction d with
  | nil => simp [dHasKey, dGet] at h
  | cons p d' ih =>
    by_cases hp : p.1 = k
    · rw [List.map_cons, if_pos hp, dGet]
      simp [hp]
    · have h' : dHasKey d' k = true := by simpa [dHasKey, dGet, hp] using h
      rw [List.map_cons, if_neg hp, dGet, if_neg hp]
      exact ih h'

theorem dGet_mapOverwrite_other {α : Type} {d : List (Str × α)} {k : Str} (v : α)
    {k' : Str} (h : ¬ k' = k) :
    dGet (d.map (fun p => if p.1 = k then (p.1, v) else p)) k' = dGet d k' := by
  induction d with
  | nil => rfl
  | cons p d' ih =>
    by_cases hp : p.1 = k
    · have hne : ¬ p.1 = k' := by rw [hp]; exact fun he => h he.symm
      rw [List.map_cons, if_pos hp, dGet, dGet, if_neg hne]
      rw [show ((p.1, v) : Str × α).1 = p.1 from rfl] at *
      rw [if_neg hne]
      exact ih
    · rw [List.map_cons, if_neg hp, dGet, dGet]
      by_cases hpk : p.1 = k'
      · rw [if_pos hpk, if_pos hpk]
      · rw [if_neg hpk, if_neg hpk]
        exact ih

theorem dGet_insert_self {α : Type} (d : List (Str × α)) (k : Str) (v : α) :
    dGet (dInsert d k v) k = some v := by
  rw [dInsert]
  by_cases h : dHasKey d k
  · rw [if_pos h]
    exact dGet_mapOverwrite_self v h
  · rw [if_neg h]
    rw [dGet_append]
    have hn : dGet d k = none := by
      simp [dHasKey, Option.isSome_iff_exists] at h
      cases hg : dGet d k with
      | none => rfl
      | some w => exact absurd hg (h w)
    rw [hn]
    simp [dGet]

theorem dGet_insert_other {α : Type} (d : List (Str × α)) (k : Str) (v : α)
    {k' : Str} (h : ¬ k' = k) :
    dGet (dInsert d k v) k' = dGet d k' := by
  rw [dInsert]
  by_cases hk : dHasKey d k
  · rw [if_pos hk]
    exact dGet_mapOverwrite_other v h
  · rw [if_neg hk, dGet_append]
    cases hg : dGet d k' with
    | none =>
      have : ¬ k = k' := fun he => h he.symm
      simp [dGet, this]
    | some w => rfl

theorem dHasKey_insert_self {α : Type} (d : List (Str × α)) (k : Str) (v : α) :
    dHasKey (dInsert d k v) k = true := by
  simp [dHasKey, dGet_insert_self]

theorem dHasKey_insert_other {α : Type} (d : List (Str × α)) (k : Str) (v : α)
    {k' : Str} (h : ¬ k' = k) :
    dHasKey (dInsert d k v) k' = dHasKey d k' := by
  simp [dHasKey, dGet_insert_other d k v h]

theorem map_congr_own {α β : Type} {l : List α} {f g : α → β} (h : ∀ a ∈ l, f a = g a) :
    l.map f = l.map g := by
  induction l with
  | nil => rfl
  | cons a l' ih =>
    rw [List.map_cons, List.map_cons, h a (List.mem_cons_self _ _),
      ih (fun b hb => h b (List.mem_cons_of_mem _ hb))]

theorem keys_insert_of_hasKey {α : Type} {d : List (Str × α)} {k : Str} (v : α)
    (h : dHasKey d k = true) :
    (dInsert d k v).map Prod.fst = d.map Prod.fst := by
  rw [dInsert, if_pos h, List.map_map]
  exact map_congr_own (fun p _ => by by_cases hp : p.1 = k <;> simp [hp])

theorem keys_insert_of_not_hasKey {α : Type} {d : List (Str × α)} {k : Str} (v : α)
    (h : dHasKey d k = false) :
    (dInsert d k v).map Prod.fst = d.map Prod.fst ++ [k] := by
  rw [dInsert, if_neg (by simp [h]), List.map_append]
  rfl

theorem length_insert_of_hasKey {α : Type} {d : List (Str × α)} {k : Str} (v : α)
    (h : dHasKey d k = true) :
    (dInsert d k v).length = d.length := by
  rw [dInsert, if_pos h, List.length_map]

theorem mem_insert_cases {α : Type} {d : List (Str × α)} {k : Str} {v : α} {q : Str × α}
    (hq : q ∈ dInsert d k v) :
    (q.1 = k ∧ q.2 = v) ∨ (q ∈ d ∧ ¬ q.1 = k) := by
  rw [dInsert] at hq
  by_cases h : dHasKey d k
  · rw [if_pos h] at hq
    rcases List.mem_map.mp hq with ⟨p, hp, hpe⟩
    by_cases hpk : p.1 = k
    · rw [if_pos hpk] at hpe
      left
      rw [← hpe]
      exact ⟨hpk, rfl⟩
    · rw [if_neg hpk] at hpe
      right
      rw [← hpe]
      exact ⟨hp, hpk⟩
  · rw [if_neg h] at hq
    rcases List.mem_append.mp hq with hq | hq
    · right
      refine ⟨hq, fun he => ?_⟩
      have hn : dGet d k = none := by
        cases hg : dGet d k with
        | none => rfl
        | some w => simp [dHasKey, hg] at h
      exact (dGet_eq_none_iff.mp hn q hq) he
    · left
      have hqe : q = (k, v) := List.mem_singleton.mp hq
      rw [hqe]
      exact ⟨rfl, rfl⟩

theorem dHasKey_of_mem {α : Type} {c : List (Str × α)} {p : Str × α} (hp : p ∈ c) :
    dHasKey c p.1 = true :=
  dHasKey_iff_mem_keys.mpr (List.mem_map_of_mem _ hp)

theorem dUpdate_nil {α : Type} (d : List (Str × α)) : dUpdate d [] = d := rfl

theorem dUpdate_cons {α : Type} (d : List (Str × α)) (p : Str × α) (w : List (Str × α)) :
    dUpdate d (p :: w) = dUpdate (dInsert d p.1 p.2) w := rfl

theorem dUpdate_append {α : Type} (d w1 w2 : List (Str × α)) :
    dUpdate d (w1 ++ w2) = dUpdate (dUpdate d w1) w2 :=
  List.foldl_append _ _ _ _

theorem dHasKey_update_mono {α : Type} {d : List (Str × α)} {k : Str}
    (w : List (Str × α)) (h : dHasKey d k = true) :
    dHasKey (dUpdate d w) k = true := by
  induction w generalizing d with
  | nil => exact h
  | cons p w' ih =>
    rw [dUpdate_cons]
    apply ih
    by_cases hk : k = p.1
    · rw [hk]
      exact dHasKey_insert_self _ _ _
    · rw [dHasKey_insert_other _ _ _ hk]
      exact h

theorem dHasKey_update_of_mem {α : Type} {w : List (Str × α)} {p : Str × α}
    (hp : p ∈ w) (d : List (Str × α)) :
    dHasKey (dUpdate d w) p.1 = true := by
  induction w generalizing d with
  | nil => simp at hp
  | cons s w' ih =>
    rw [dUpdate_cons]
    rcases List.mem_cons.mp hp with hp | hp
    · subst hp
      exact dHasKey_update_mono w' (dHasKey_insert_self _ _ _)
    · exact ih hp _

theorem finalVal_append {α : Type} (w1 w2 : List (Str × α)) (k : Str) (v : α) :
    finalVal (w1 ++ w2) k v = finalVal w2 k (finalVal w1 k v) :=
  List.foldl_append _ _ _ _

theorem finalVal_snoc {α : Type} (w : List (Str × α)) (p : Str × α) (k : Str) (v : α) :
    finalVal (w ++ [p]) k v = if p.1 = k then p.2 else finalVal w k v := by
  rw [finalVal_append]
  rfl

theorem finalVal_cons {α : Type} (p : Str × α) (w : List (Str × α)) (k : Str) (v : α) :
    finalVal (p :: w) k v = finalVal w k (if p.1 = k then p.2 else v) := rfl

theorem finalVal_no_key {α : Type} {w : List (Str × α)} {k : Str}
    (h : ∀ s ∈ w, ¬ s.1 = k) (v : α) :
    finalVal w k v = v := by
  induction w generalizing v with
  | nil => rfl
  | cons s w' ih =>
    rw [finalVal_cons, if_neg (h s (List.mem_cons_self _ _))]
    exact ih (fun t ht => h t (List.mem_cons_of_mem _ ht)) v

theorem finalVal_fix_update {α : Type} (pre : List (Str × α)) (w : List (Str × α))
    (x : List (Str × α)) (hx : ∀ q ∈ x, finalVal pre q.1 q.2 = q.2) :
    ∀ q ∈ dUpdate x w, finalVal (pre ++ w) q.1 q.2 = q.2 := by
  induction w using List.reverseRecOn with
  | nil =>
    intro q hq
    rw [List.append_nil]
    exact hx q hq
  | append_singleton w' p ih =>
    intro q hq
    rw [dUpdate_append] at hq
    rcases mem_insert_cases hq with ⟨h1, h2⟩ | ⟨h1, h2⟩
    · rw [show pre ++ (w' ++ [p]) = (pre ++ w') ++ [p] from (List.append_assoc _ _ _).symm,
        finalVal_snoc, if_pos h1.symm]
      exact h2.symm
    · rw [show pre ++ (w' ++ [p]) = (pre ++ w') ++ [p] from (List.append_assoc _ _ _).symm,
        finalVal_snoc, if_neg (fun he => h2 he.symm)]
      exact ih q h1

theorem dUpdate_eq_map_of_keys {α : Type} (w : List (Str × α)) :
    ∀ (x : List (Str × α)), (∀ p ∈ w, dHasKey x p.1 = true) →
      dUpdate x w = x.map (fun q => (q.1, finalVal w q.1 q.2)) := by
  induction w with
  | nil =>
    intro x _
    rw [dUpdate_nil]
    have he : x.map (fun q => (q.1, finalVal ([] : List (Str × α)) q.1 q.2)) =
        x.map id := map_congr_own (fun q _ => rfl)
    rw [he, List.map_id]
  | cons p w' ih =>
    intro x hx
    rw [dUpdate_cons]
    have hp : dHasKey x p.1 = true := hx p (List.mem_cons_self _ _)
    have hins : dInsert x p.1 p.2 = x.map (fun q => if q.1 = p.1 then (q.1, p.2) else q) := by
      rw [dInsert, if_pos hp]
    rw [hins]
    have hkeys : (x.map (fun q => if q.1 = p.1 then (q.1, p.2) else q)).map Prod.fst =
        x.map Prod.fst := by
      rw [List.map_map]
      exact map_congr_own (fun q _ => by by_cases hq : q.1 = p.1 <;> simp [hq])
    have hx' : ∀ s ∈ w',
        dHasKey (x.map (fun q => if q.1 = p.1 then (q.1, p.2) else q)) s.1 = true := by
      intro s hs
      rw [dHasKey_iff_mem_keys, hkeys, ← dHasKey_iff_mem_keys]
      exact hx s (List.mem_cons_of_mem _ hs)
    rw [ih _ hx', List.map_map]
    apply map_congr_own
    intro q _
    by_cases hq : q.1 = p.1
    · simp only [Function.comp, if_pos hq]
      rw [finalVal_cons, if_pos hq.symm]
    · simp only [Function.comp, if_neg hq]
      rw [finalVal_cons, if_neg (fun he => hq he.symm)]

theorem dUpdate_fix {α : Type} {x w : List (Str × α)}
    (h1 : ∀ q ∈ x, finalVal w q.1 q.2 = q.2)
    (h2 : ∀ p ∈ w, dHasKey x p.1 = true) :
    dUpdate x w = x := by
  rw [dUpdate_eq_map_of_keys w x h2]
  have he : x.map (fun q => (q.1, finalVal w q.1 q.2)) = x.map id :=
    map_congr_own (fun q hq => by rw [h1 q hq]; rfl)
  rw [he, List.map_id]

theorem dUpdate_length {α : Type} {x w : List (Str × α)}
    (h : ∀ p ∈ w, dHasKey x p.1 = true) :
    (dUpdate x w).length = x.length := by
  rw [dUpdate_eq_map_of_keys w x h, List.length_map]

theorem finalVal_self_of_nodup {α : Type} :
    ∀ {c : List (Str × α)}, (c.map Prod.fst).Nodup → ∀ q ∈ c, finalVal c q.1 q.2 = q.2 := by
  intro c
  induction c with
  | nil => intro _ q hq; simp at hq
  | cons p c' ih =>
    intro h q hq
    have h' : (p.1 :: c'.map Prod.fst).Nodup := by rw [List.map_cons] at h; exact h
    obtain ⟨hp, hnd⟩ := List.nodup_cons.mp h'
    rcases List.mem_cons.mp hq with hq | hq
    · subst hq
      rw [finalVal_cons, if_pos rfl]
      exact finalVal_no_key
        (fun s hs he => hp (by rw [← he]; exact List.mem_map_of_mem Prod.fst hs)) q.2
    · have hne : ¬ p.1 = q.1 := fun he =>
        hp (by rw [he]; exact List.mem_map_of_mem Prod.fst hq)
      rw [finalVal_cons, if_neg hne]
      exact ih hnd q hq

theorem ctn_insert_self (j : Store) (t : Str) (v : EntryDict) :
    ctn (dInsert j t v) t = v := by
  rw [ctn, dGet_insert_self]
  rfl

theorem ctn_insert_other (j : Store) (t : Str) (v : EntryDict) {t' : Str} (h : ¬ t' = t) :
    ctn (dInsert j t v) t' = ctn j t' := by
  rw [ctn, dGet_insert_other _ _ _ h]
  rfl

theorem storeFold_cons (j : Store) (kv : Str × EntryDict) (L : List (Str × EntryDict)) :
    storeFold j (kv :: L) =
      storeFold (if dHasKey j kv.1 then dInsert j kv.1 (dUpdate (ctn j kv.1) kv.2)
        else dInsert j kv.1 kv.2) L := rfl

theorem dHasKey_storeFold_mono {t : Str} (L : List (Str × EntryDict)) :
    ∀ j : Store, dHasKey j t = true → dHasKey (storeFold j L) t = true := by
  induction L with
  | nil => intro j h; exact h
  | cons kv L' ih =>
    intro j h
    rw [storeFold_cons]
    have hv : ∀ v, dHasKey (dInsert j kv.1 v) t = true := by
      intro v
      by_cases ht : t = kv.1
      · rw [ht]
        exact dHasKey_insert_self _ _ _
      · rw [dHasKey_insert_other _ _ _ ht]
        exact h
    by_cases hk : dHasKey j kv.1 = true
    · rw [if_pos hk]
      exact ih _ (hv _)
    · rw [if_neg hk]
      exact ih _ (hv _)

theorem dHasKey_storeFold_of_mem {L : List (Str × EntryDict)} {t : Str} {c : EntryDict}
    (h : (t, c) ∈ L) : ∀ j : Store, dHasKey (storeFold j L) t = true := by
  induction L with
  | nil => simp at h
  | cons kv L' ih =>
    intro j
    rcases List.mem_cons.mp h with he | he
    · rw [storeFold_cons]
      have h1 : kv.1 = t := by rw [← he]
      by_cases hk : dHasKey j kv.1 = true
      · rw [if_pos hk]
        apply dHasKey_storeFold_mono
        rw [← h1]
        exact dHasKey_insert_self _ _ _
      · rw [if_neg hk]
        apply dHasKey_storeFold_mono
        rw [← h1]
        exact dHasKey_insert_self _ _ _
    · rw [storeFold_cons]
      by_cases hk : dHasKey j kv.1 = true
      · rw [if_pos hk]; exact ih he _
      · rw [if_neg hk]; exact ih he _

theorem writesTo_cons (t : Str) (kv : Str × EntryDict) (L : List (Str × EntryDict)) :
    writesTo t (kv :: L) = if kv.1 = t then kv.2 :: writesTo t L else writesTo t L := by
  rw [writesTo, List.filterMap_cons]
  by_cases h : kv.1 = t
  · rw [if_pos h, if_pos h]
    rfl
  · rw [if_neg h, if_neg h]
    rfl

theorem storeFold_good (t : Str) (L : List (Str × EntryDict))
    (hB : ∀ p ∈ L, (p.2.map Prod.fst).Nodup) :
    ∀ (j : Store) (w : List (Str × Str)),
      ((dHasKey j t = true ∧
          (∀ q ∈ ctn j t, finalVal w q.1 q.2 = q.2) ∧
          (∀ s ∈ w, dHasKey (ctn j t) s.1 = true)) ∨
        (dHasKey j t = false ∧ w = [])) →
      ((dHasKey (storeFold j L) t = true ∧
          (∀ q ∈ ctn (storeFold j L) t,
            finalVal (w ++ (writesTo t L).flatten) q.1 q.2 = q.2) ∧
          (∀ s ∈ w ++ (writesTo t L).flatten,
            dHasKey (ctn (storeFold j L) t) s.1 = true)) ∨
        (dHasKey (storeFold j L) t = false ∧ w ++ (writesTo t L).flatten = [])) := by
  induction L with
  | nil =>
    intro j w hj
    have he : w ++ (writesTo t ([] : List (Str × EntryDict))).flatten = w := by
      rw [show writesTo t ([] : List (Str × EntryDict)) = [] from rfl]
      simp
    rw [show storeFold j [] = j from rfl, he]
    exact hj
  | cons kv L' ih =>
    intro j w hj
    have hB' : ∀ p ∈ L', (p.2.map Prod.fst).Nodup :=
      fun p hp => hB p (List.mem_cons_of_mem _ hp)
    obtain ⟨t₀, c₀⟩ := kv
    by_cases ht : t₀ = t
    · subst ht
      have hw : writesTo t₀ ((t₀, c₀) :: L') = c₀ :: writesTo t₀ L' := by
        rw [writesTo_cons, if_pos rfl]
      rw [storeFold_cons, hw, List.flatten_cons]
      by_cases hk : dHasKey j t₀ = true
      · rw [if_pos hk]
        rcases hj with ⟨_, h2, h3⟩ | ⟨hfalse, _⟩
        · have hstep := ih hB' (dInsert j t₀ (dUpdate (ctn j t₀) c₀)) (w ++ c₀)
            (Or.inl ⟨dHasKey_insert_self _ _ _, by
              rw [ctn_insert_self]
              exact finalVal_fix_update w c₀ (ctn j t₀) h2, by
              rw [ctn_insert_self]
              intro s hs
              rcases List.mem_append.mp hs with hs | hs
              · exact dHasKey_update_mono c₀ (h3 s hs)
              · exact dHasKey_update_of_mem hs _⟩)
          rw [← List.append_assoc]
          exact hstep
        · rw [hk] at hfalse
          cases hfalse
      · rw [if_neg hk]
        rcases hj with ⟨htrue, _, _⟩ | ⟨_, hw0⟩
        · exact absurd htrue hk
        · subst hw0
          have hnd : (c₀.map Prod.fst).Nodup := hB (t₀, c₀) (List.mem_cons_self _ _)
          have hstep := ih hB' (dInsert j t₀ c₀) c₀
            (Or.inl ⟨dHasKey_insert_self _ _ _, by
              rw [ctn_insert_self]
              exact finalVal_self_of_nodup hnd, by
              rw [ctn_insert_self]
              intro s hs
              exact dHasKey_of_mem hs⟩)
          rw [List.nil_append]
          exact hstep
    · have hw : writesTo t ((t₀, c₀) :: L') = writesTo t L' := by
        rw [writesTo_cons, if_neg ht]
      rw [storeFold_cons, hw]
      have hne : ¬ t = t₀ := fun he => ht he.symm
      have hkeep1 : ∀ v, dHasKey (dInsert j t₀ v) t = dHasKey j t :=
        fun v => dHasKey_insert_other _ _ _ hne
      have hkeep2 : ∀ v, ctn (dInsert j t₀ v) t = ctn j t :=
        fun v => ctn_insert_other _ _ _ hne
      have htrans : ∀ v,
          ((dHasKey (dInsert j t₀ v) t = true ∧
              (∀ q ∈ ctn (dInsert j t₀ v) t, finalVal w q.1 q.2 = q.2) ∧
              (∀ s ∈ w, dHasKey (ctn (dInsert j t₀ v) t) s.1 = true)) ∨
            (dHasKey (dInsert j t₀ v) t = false ∧ w = [])) := by
        intro v
        rcases hj with ⟨h1, h2, h3⟩ | ⟨h1, h2⟩
        · exact Or.inl ⟨by rw [hkeep1]; exact h1, by rw [hkeep2]; exact h2,
            by rw [hkeep2]; exact h3⟩
        · exact Or.inr ⟨by rw [hkeep1]; exact h1, h2⟩
      by_cases hk : dHasKey j t₀ = true
      · rw [if_pos hk]
        exact ih hB' _ w (htrans _)
      · rw [if_neg hk]
        exact ih hB' _ w (htrans _)

theorem run1_absorbs {L : List (Str × EntryDict)}
    (hB : ∀ p ∈ L, (p.2.map Prod.fst).Nodup)
    (j0 : Store) {t : Str} {c : EntryDict} (htc : (t, c) ∈ L) :
    dHasKey (storeFold j0 L) t = true ∧
    (∀ q ∈ ctn (storeFold j0 L) t, finalVal ((writesTo t L).flatten) q.1 q.2 = q.2) ∧
    (∀ s ∈ (writesTo t L).flatten, dHasKey (ctn (storeFold j0 L) t) s.1 = true) := by
  have hpres := dHasKey_storeFold_of_mem htc j0
  have hinit : ((dHasKey j0 t = true ∧
      (∀ q ∈ ctn j0 t, finalVal ([] : List (Str × Str)) q.1 q.2 = q.2) ∧
      (∀ s ∈ ([] : List (Str × Str)), dHasKey (ctn j0 t) s.1 = true)) ∨
    (dHasKey j0 t = false ∧ ([] : List (Str × Str)) = [])) := by
    cases hb : dHasKey j0 t with
    | true => exact Or.inl ⟨rfl, fun q _ => rfl, fun s hs => absurd hs (List.not_mem_nil s)⟩
    | false => exact Or.inr ⟨rfl, rfl⟩
  have hmain := storeFold_good t L hB j0 [] hinit
  rcases hmain with ⟨h1, h2, h3⟩ | ⟨h1, _⟩
  · rw [List.nil_append] at h2 h3
    exact ⟨h1, h2, h3⟩
  · rw [hpres] at h1
    cases h1

theorem storeFold_map_of_present (L : List (Str × EntryDict)) :
    ∀ j : Store, (j.map Prod.fst).Nodup → (∀ p ∈ L, dHasKey j p.1 = true) →
      storeFold j L = j.map (fun q => (q.1, (writesTo q.1 L).foldl dUpdate q.2)) := by
  induction L with
  | nil =>
    intro j _ _
    rw [show storeFold j [] = j from rfl]
    have he : j.map (fun q =>
        (q.1, (writesTo q.1 ([] : List (Str × EntryDict))).foldl dUpdate q.2)) = j.map id :=
      map_congr_own (fun q _ => rfl)
    rw [he, List.map_id]
  | cons kv L' ih =>
    intro j hnd hp
    obtain ⟨t₀, c₀⟩ := kv
    have hk : dHasKey j t₀ = true := hp (t₀, c₀) (List.mem_cons_self _ _)
    rw [storeFold_cons, if_pos hk]
    have hins : dInsert j t₀ (dUpdate (ctn j t₀) c₀) =
        j.map (fun q => (q.1, if q.1 = t₀ then dUpdate q.2 c₀ else q.2)) := by
      rw [dInsert, if_pos hk]
      apply map_congr_own
      intro q hq
      by_cases hq0 : q.1 = t₀
      · rw [if_pos hq0, if_pos hq0]
        have hc : ctn j t₀ = q.2 := by
          rw [← hq0, ctn, nodup_dGet hnd hq]
          rfl
        rw [hc]
      · rw [if_neg hq0, if_neg hq0]
    rw [hins]
    have hkeys : (j.map (fun q =>
        (q.1, if q.1 = t₀ then dUpdate q.2 c₀ else q.2))).map Prod.fst = j.map Prod.fst := by
      rw [List.map_map]
      exact map_congr_own (fun q _ => rfl)
    have hnd' : ((j.map (fun q =>
        (q.1, if q.1 = t₀ then dUpdate q.2 c₀ else q.2))).map Prod.fst).Nodup := by
      rw [hkeys]
      exact hnd
    have hp' : ∀ p ∈ L', dHasKey (j.map (fun q =>
        (q.1, if q.1 = t₀ then dUpdate q.2 c₀ else q.2))) p.1 = true := by
      intro p hpl
      rw [dHasKey_iff_mem_keys, hkeys, ← dHasKey_iff_mem_keys]
      exact hp p (List.mem_cons_of_mem _ hpl)
    rw [ih _ hnd' hp', List.map_map]
    apply map_congr_own
    intro q _
    simp only [Function.comp]
    rw [writesTo_cons]
    by_cases hq0 : q.1 = t₀
    · rw [if_pos hq0, if_pos hq0.symm]
      rfl
    · rw [if_neg hq0, if_neg (fun he => hq0 he.symm)]

theorem foldl_nested_flatten {σ α : Type} (f : σ → α → σ) (dd : List (List α)) :
    ∀ init : σ, dd.foldl (fun st data => data.foldl f st) init = dd.flatten.foldl f init := by
  induction dd with
  | nil => intro init; rfl
  | cons d dd' ih =>
    intro init
    show dd'.foldl _ (d.foldl f init) = _
    rw [ih (d.foldl f init), List.flatten_cons, List.foldl_append]

theorem updFold_json (L : List (Str × EntryDict)) :
    ∀ st : UpdRes, (L.foldl (updStep false) st).json = storeFold st.json L := by
  induction L with
  | nil => intro st; rfl
  | cons kv L' ih =>
    intro st
    rw [List.foldl_cons, ih, storeFold_cons]
    congr 1
    by_cases hk : dHasKey st.json kv.1 = true <;> simp [updStep, hk]

theorem updFold_no_updates (L : List (Str × EntryDict)) :
    ∀ (j : Store) (n : Nat) (u : List (Str × Nat)),
      (∀ p ∈ L, dHasKey j p.1 = true ∧ ∀ s ∈ p.2, dHasKey (ctn j p.1) s.1 = true) →
      (L.foldl (updStep false) ⟨j, n, u⟩).catUpdates = u := by
  induction L with
  | nil => intro j n u _; rfl
  | cons kv L' ih =>
    intro j n u h
    obtain ⟨hk, hks⟩ := h kv (List.mem_cons_self _ _)
    rw [List.foldl_cons]
    have hlen : (dUpdate (ctn j kv.1) kv.2).length = (ctn j kv.1).length := dUpdate_length hks
    have hstep : updStep false ⟨j, n, u⟩ kv =
        ⟨dInsert j kv.1 (dUpdate (ctn j kv.1) kv.2), n + kv.2.length, u⟩ := by
      simp [updStep, hk, hlen]
    rw [hstep]
    apply ih
    intro p hp
    obtain ⟨h1, h2⟩ := h p (List.mem_cons_of_mem _ hp)
    constructor
    · by_cases hpt : p.1 = kv.1
      · rw [hpt]
        exact dHasKey_insert_self _ _ _
      · rw [dHasKey_insert_other _ _ _ hpt]
        exact h1
    · intro s hs
      by_cases hpt : p.1 = kv.1
      · rw [hpt, ctn_insert_self]
        apply dHasKey_update_mono
        rw [← hpt]
        exact h2 s hs
      · rw [ctn_insert_other _ _ _ hpt]
        exact h2 s hs

theorem nodup_storeFold (L : List (Str × EntryDict)) :
    ∀ j : Store, (j.map Prod.fst).Nodup → ((storeFold j L).map Prod.fst).Nodup := by
  induction L with
  | nil => intro j h; exact h
  | cons kv L' ih =>
    intro j h
    rw [storeFold_cons]
    by_cases hk : dHasKey j kv.1 = true
    · rw [if_pos hk]
      exact ih _ (by rw [keys_insert_of_hasKey _ hk]; exact h)
    · rw [if_neg hk]
      apply ih
      have hkf : dHasKey j kv.1 = false := by
        cases hb : dHasKey j kv.1 with
        | false => rfl
        | true => exact absurd hb hk
      rw [keys_insert_of_not_hasKey _ hkf]
      have hnm : kv.1 ∉ j.map Prod.fst := by
        intro hm
        rw [← dHasKey_iff_mem_keys] at hm
        exact hk hm
      rw [List.nodup_append]
      refine ⟨h, List.nodup_singleton _, ?_⟩
      intro a ha hb
      have hae : a = kv.1 := List.mem_singleton.mp hb
      exact hnm (hae ▸ ha)

theorem storeFold_untouched (L : List (Str × EntryDict)) :
    ∀ (j : Store) (p : Str × EntryDict), p ∈ storeFold j L →
      (∀ kv ∈ L, ¬ kv.1 = p.1) → p ∈ j := by
  induction L with
  | nil => intro j p hp _; exact hp
  | cons kv L' ih =>
    intro j p hp hne
    have hkv : ¬ kv.1 = p.1 := hne kv (List.mem_cons_self _ _)
    have hne' : ∀ s ∈ L', ¬ s.1 = p.1 := fun s hs => hne s (List.mem_cons_of_mem _ hs)
    rw [storeFold_cons] at hp
    by_cases hk : dHasKey j kv.1 = true
    · rw [if_pos hk] at hp
      rcases mem_insert_cases (ih _ p hp hne') with ⟨h1, _⟩ | ⟨h1, _⟩
      · exact absurd h1.symm hkv
      · exact h1
    · rw [if_neg hk] at hp
      rcases mem_insert_cases (ih _ p hp hne') with ⟨h1, _⟩ | ⟨h1, _⟩
      · exact absurd h1.symm hkv
      · exact h1

theorem writesTo_nil_of_forall {L : List (Str × EntryDict)} {t : Str}
    (h : ∀ kv ∈ L, ¬ kv.1 = t) : writesTo t L = [] := by
  induction L with
  | nil => rfl
  | cons kv L' ih =>
    rw [writesTo_cons, if_neg (h kv (List.mem_cons_self _ _))]
    exact ih (fun s hs => h s (List.mem_cons_of_mem _ hs))

theorem mem_writesTo {L : List (Str × EntryDict)} {p : Str × EntryDict} (hp : p ∈ L) :
    p.2 ∈ writesTo p.1 L := by
  rw [writesTo]
  exact List.mem_filterMap.mpr ⟨p, hp, by rw [if_pos rfl]⟩

theorem foldl_dUpdate_flatten {α : Type} (cs : List (List (Str × α))) (x : List (Str × α)) :
    cs.foldl dUpdate x = dUpdate x cs.flatten := by
  rw [show dUpdate x cs.flatten =
      cs.flatten.foldl (fun acc p => dInsert acc p.1 p.2) x from rfl,
    ← foldl_nested_flatten]
  rfl

theorem dGet_filter_keys (j : Store) (kws : List Str) (t : Str) :
    dGet (j.filter (fun p => memStr p.1 kws)) t =
      if memStr t kws = true then dGet j t else none := by
  induction j with
  | nil => by_cases h : memStr t kws = true <;> simp [dGet, h]
  | cons p j' ih =>
    rw [List.filter_cons]
    by_cases hp : memStr p.1 kws = true
    · rw [if_pos hp]
      by_cases hpt : p.1 = t
      · subst hpt
        rw [if_pos hp, dGet, if_pos rfl, dGet, if_pos rfl]
      · rw [dGet, if_neg hpt, ih]
        by_cases hm : memStr t kws = true
        · rw [if_pos hm, if_pos hm, dGet, if_neg hpt]
        · rw [if_neg hm, if_neg hm]
    · rw [if_neg hp, ih]
      by_cases hm : memStr t kws = true
      · rw [if_pos hm, if_pos hm]
        by_cases hpt : p.1 = t
        · subst hpt
          rw [hm] at hp
          exact absurd rfl hp
        · rw [dGet, if_neg hpt]
      · rw [if_neg hm, if_neg hm]

theorem existingCount_nil_of_zero {m : Store} (h : existingCount m = 0) :
    ∀ p ∈ m, p.2 = [] := by
  intro p hp
  have hmem : p.2.length ∈ m.map (fun q => q.2.length) := List.mem_map_of_mem _ hp
  have hz : p.2.length = 0 := by
    rw [existingCount] at h
    exact List.sum_eq_zero_iff.mp h _ hmem
  exact List.length_eq_zero.mp hz

theorem existingCount_filter_of_empty_dropped {j : Store} {kws : List Str}
    (h : ∀ p ∈ j, memStr p.1 kws = false → p.2 = []) :
    existingCount (j.filter (fun p => memStr p.1 kws)) = existingCount j := by
  induction j with
  | nil => rfl
  | cons p j' ih =>
    have hrec := ih (fun q hq => h q (List.mem_cons_of_mem _ hq))
    rw [List.filter_cons]
    by_cases hp : memStr p.1 kws = true
    · rw [if_pos hp]
      rw [existingCount, List.map_cons, List.sum_cons]
      rw [existingCount, List.map_cons, List.sum_cons]
      rw [show (j'.filter (fun p => memStr p.1 kws)).map (fun q => q.2.length) =
        ((j'.filter (fun p => memStr p.1 kws)).map (fun q => q.2.length)) from rfl]
      have : ((j'.filter (fun p => memStr p.1 kws)).map (fun q => q.2.length)).sum =
          (j'.map (fun q => q.2.length)).sum := hrec
      rw [this]
    · rw [if_neg hp]
      have hbool : memStr p.1 kws = false := by
        cases hb : memStr p.1 kws with
        | false => rfl
        | true => exact absurd hb hp
      have hempty : p.2 = [] := h p (List.mem_cons_self _ _) hbool
      rw [hrec]
      show existingCount j' = existingCount (p :: j')
      rw [existingCount, existingCount, List.map_cons, List.sum_cons, hempty]
      simp

theorem json0Of_props {m : Store} {kws : List Str} (hnd : (m.map Prod.fst).Nodup)
    (hst : ∀ p ∈ m, memStr p.1 kws = false → p.2 = []) :
    ((json0Of m kws).map Prod.fst).Nodup ∧
    (∀ t, memStr t kws = true → dGet (json0Of m kws) t = dGet m t) ∧
    (∀ t k, getEntry (json0Of m kws) t k = getEntry m t k) ∧
    existingCount (json0Of m kws) = existingCount m ∧
    (∀ q ∈ json0Of m kws, q ∈ m) := by
  rw [json0Of]
  by_cases he : 0 < existingCount m
  · rw [if_pos he]
    rw [remove_old_keywords]
    refine ⟨?_, ?_, ?_, ?_, ?_⟩
    · exact hnd.sublist (List.Sublist.map _ (List.filter_sublist _))
    · intro t ht
      rw [dGet_filter_keys, if_pos ht]
    · intro t k
      rw [getEntry, getEntry, dGet_filter_keys]
      by_cases hm : memStr t kws = true
      · rw [if_pos hm]
      · rw [if_neg hm]
        cases hg : dGet m t with
        | none => rfl
        | some c =>
          have hcm : (t, c) ∈ m := dGet_mem hg
          have hbool : memStr t kws = false := by
            cases hb : memStr t kws with
            | false => rfl
            | true => exact absurd hb hm
          have : c = [] := hst (t, c) hcm hbool
          rw [this]
          rfl
    · exact existingCount_filter_of_empty_dropped hst
    · intro q hq
      exact (List.mem_filter.mp hq).1
  · rw [if_neg he]
    exact ⟨hnd, fun t _ => rfl, fun t k => rfl, rfl, fun q hq => hq⟩

theorem update_json_file_stored_eq (m : Store) (dd : List Store) (kws : List Str) :
    update_json_file (.stored m) dd kws false =
      some { existing := existingCount m,
             updated := existingCount (storeFold (json0Of m kws) dd.flatten),
             newPapers := (dd.flatten.foldl (updStep false)
               ⟨json0Of m kws, 0, []⟩).newPapers,
             catUpdates := (dd.flatten.foldl (updStep false)
               ⟨json0Of m kws, 0, []⟩).catUpdates,
             json := storeFold (json0Of m kws) dd.flatten } := by
  have hfold := foldl_nested_flatten (updStep false) dd
  have hje : (if (false = false ∧ 0 < existingCount m) then (remove_old_keywords m kws).1
      else m) = json0Of m kws := by
    rw [json0Of]
    by_cases he : 0 < existingCount m
    · rw [if_pos ⟨rfl, he⟩, if_pos he]
    · rw [if_neg (fun hc => he hc.2), if_neg he]
  have step1 : update_json_file (.stored m) dd kws false =
      some { existing := existingCount m,
             updated := existingCount ((dd.foldl
               (fun (st : UpdRes) (data : Store) => data.foldl (updStep false) st)
               (⟨(if (false = false ∧ 0 < existingCount m) then (remove_old_keywords m kws).1
                 else m), 0, []⟩ : UpdRes)).json),
             newPapers := (dd.foldl
               (fun (st : UpdRes) (data : Store) => data.foldl (updStep false) st)
               (⟨(if (false = false ∧ 0 < existingCount m) then (remove_old_keywords m kws).1
                 else m), 0, []⟩ : UpdRes)).newPapers,
             catUpdates := (dd.foldl
               (fun (st : UpdRes) (data : Store) => data.foldl (updStep false) st)
               (⟨(if (false = false ∧ 0 < existingCount m) then (remove_old_keywords m kws).1
                 else m), 0, []⟩ : UpdRes)).catUpdates,
             json := (dd.foldl
               (fun (st : UpdRes) (data : Store) => data.foldl (updStep false) st)
               (⟨(if (false = false ∧ 0 < existingCount m) then (remove_old_keywords m kws).1
                 else m), 0, []⟩ : UpdRes)).json } := rfl
  rw [step1, hje, hfold, updFold_json]

theorem run2_fixpoint {L : List (Str × EntryDict)} {kws : List Str} {j0 : Store}
    (hBL : ∀ p ∈ L, (p.2.map Prod.fst).Nodup)
    (hKL : ∀ p ∈ L, memStr p.1 kws = true)
    (hnd0 : (j0.map Prod.fst).Nodup)
    (hst0 : ∀ p ∈ j0, memStr p.1 kws = false → p.2 = []) :
    storeFold (json0Of (storeFold j0 L) kws) L = json0Of (storeFold j0 L) kws ∧
    existingCount (json0Of (storeFold j0 L) kws) = existingCount (storeFold j0 L) ∧
    (∀ t k, getEntry (json0Of (storeFold j0 L) kws) t k = getEntry (storeFold j0 L) t k) ∧
    (L.foldl (updStep false) ⟨json0Of (storeFold j0 L) kws, 0, []⟩).catUpdates = [] := by
  have f1 : ((storeFold j0 L).map Prod.fst).Nodup := nodup_storeFold L j0 hnd0
  have f2 : ∀ p ∈ storeFold j0 L, memStr p.1 kws = false → p.2 = [] := by
    intro p hp hf
    have hne : ∀ kv ∈ L, ¬ kv.1 = p.1 := by
      intro kv hkv he
      have hm := hKL kv hkv
      rw [he] at hm
      rw [hm] at hf
      cases hf
    exact hst0 p (storeFold_untouched L j0 p hp hne) hf
  obtain ⟨g1, g2, g3, g4, g5⟩ := json0Of_props f1 f2
  have hpres : ∀ p ∈ L, dHasKey (json0Of (storeFold j0 L) kws) p.1 = true := by
    intro p hpl
    have hd : dGet (json0Of (storeFold j0 L) kws) p.1 = dGet (storeFold j0 L) p.1 :=
      g2 p.1 (hKL p hpl)
    have ht1 : dHasKey (storeFold j0 L) p.1 = true :=
      dHasKey_storeFold_of_mem (show (p.1, p.2) ∈ L from hpl) j0
    show (dGet (json0Of (storeFold j0 L) kws) p.1).isSome = true
    rw [hd]
    exact ht1
  have hfix : storeFold (json0Of (storeFold j0 L) kws) L = json0Of (storeFold j0 L) kws := by
    rw [storeFold_map_of_present L (json0Of (storeFold j0 L) kws) g1 hpres]
    have hpt : ∀ q ∈ json0Of (storeFold j0 L) kws,
        (fun q => (q.1, (writesTo q.1 L).foldl dUpdate q.2)) q = id q := by
      intro q hq
      show (q.1, (writesTo q.1 L).foldl dUpdate q.2) = q
      rw [foldl_dUpdate_flatten]
      by_cases hw : ∀ kv ∈ L, ¬ kv.1 = q.1
      · rw [writesTo_nil_of_forall hw]
        rfl
      · push_neg at hw
        obtain ⟨kv, hkvL, hkv1⟩ := hw
        have htc : (q.1, kv.2) ∈ L := by rw [← hkv1]; exact hkvL
        obtain ⟨ha, hb, hc⟩ := run1_absorbs hBL j0 htc
        have hctn : ctn (storeFold j0 L) q.1 = q.2 := by
          rw [ctn, nodup_dGet f1 (g5 q hq)]
          rfl
        rw [hctn] at hb hc
        rw [dUpdate_fix hb hc]
    rw [map_congr_own hpt, List.map_id]
  have hcat : (L.foldl (updStep false)
      ⟨json0Of (storeFold j0 L) kws, 0, []⟩).catUpdates = [] := by
    apply updFold_no_updates
    intro p hpl
    refine ⟨hpres p hpl, ?_⟩
    intro s hs
    obtain ⟨ha, hb, hc⟩ := run1_absorbs hBL j0 (show (p.1, p.2) ∈ L from hpl)
    have hsf : s ∈ (writesTo p.1 L).flatten :=
      List.mem_flatten.mpr ⟨p.2, mem_writesTo hpl, hs⟩
    have hd : ctn (json0Of (storeFold j0 L) kws) p.1 = ctn (storeFold j0 L) p.1 := by
      rw [ctn, ctn, g2 p.1 (hKL p hpl)]
    rw [hd]
    exact hc s hsf
  exact ⟨hfix, g4, g3, hcat⟩

/-- C1 counterexample: with a batch topic (`"X"`) that is not among the
configured keywords, the second run is NOT silent.  Starting from the
empty store, the first run stores topic `"X"`; the second run finds a
positive existing count, prunes `"X"` via `remove_old_keywords`, then
re-inserts it and reports `category_updates = {"X": 1}` — nonzero
additions, contradicting the claim as stated for arbitrary batches. -/
theorem update_json_file_not_idempotent :
    ∃ u1 u2 : UpdOut,
      update_json_file (.stored [])
        [[("X".toList, [("k".toList, "r".toList)])]] [] false = some u1 ∧
      update_json_file (.stored u1.json)
        [[("X".toList, [("k".toList, "r".toList)])]] [] false = some u2 ∧
      ¬ u2.catUpdates = [] := by
  refine ⟨{ existing := 0, updated := 1, newPapers := 1,
            catUpdates := [("X".toList, 1)],
            json := [("X".toList, [("k".toList, "r".toList)])] },
          { existing := 1, updated := 1, newPapers := 1,
            catUpdates := [("X".toList, 1)],
            json := [("X".toList, [("k".toList, "r".toList)])] }, ?_, ?_, ?_⟩
  · decide
  · decide
  · decide

/-- C1 (corrected): merge is idempotent provided every topic of the
fetched batch is among the configured keywords.  For a well-formed store
(no duplicate topic keys) and well-formed batch contents (no duplicate
entry keys per topic), running `update_json_file` with `clear_existing`
false a second time with the identical batch against the already-merged
store succeeds, leaves the total entry count and every stored entry
unchanged, and reports zero additions for every topic
(`category_updates` is empty).  Without the keyword condition the second
run re-adds topics pruned by `remove_old_keywords` and reports them as
additions; see the counterexample. -/
theorem update_json_file_idempotent (S : Store) (dd : List Store) (kws : List Str)
    (hS : (S.map Prod.fst).Nodup)
    (hB : ∀ d ∈ dd, ∀ p ∈ d, (p.2.map Prod.fst).Nodup)
    (hK : ∀ d ∈ dd, ∀ p ∈ d, memStr p.1 kws = true) :
    ∃ u1 u2 : UpdOut,
      update_json_file (.stored S) dd kws false = some u1 ∧
      update_json_file (.stored u1.json) dd kws false = some u2 ∧
      existingCount u2.json = existingCount u1.json ∧
      (∀ t k, getEntry u2.json t k = getEntry u1.json t k) ∧
      u2.catUpdates = [] := by
  have hBL : ∀ p ∈ dd.flatten, (p.2.map Prod.fst).Nodup := by
    intro p hp
    obtain ⟨d, hd, hpd⟩ := List.mem_flatten.mp hp
    exact hB d hd p hpd
  have hKL : ∀ p ∈ dd.flatten, memStr p.1 kws = true := by
    intro p hp
    obtain ⟨d, hd, hpd⟩ := List.mem_flatten.mp hp
    exact hK d hd p hpd
  have hnd0 : ((json0Of S kws).map Prod.fst).Nodup := by
    rw [json0Of]
    by_cases he : 0 < existingCount S
    · rw [if_pos he]
      exact hS.sublist (List.Sublist.map _ (List.filter_sublist _))
    · rw [if_neg he]
      exact hS
  have hst0 : ∀ p ∈ json0Of S kws, memStr p.1 kws = false → p.2 = [] := by
    intro p hp hf
    rw [json0Of] at hp
    by_cases he : 0 < existingCount S
    · rw [if_pos he] at hp
      have hm : memStr p.1 kws = true := (List.mem_filter.mp hp).2
      rw [hm] at hf
      cases hf
    · rw [if_neg he] at hp
      exact existingCount_nil_of_zero (Nat.eq_zero_of_not_pos he) p hp
  obtain ⟨hfix, hcnt, hget, hcat⟩ := run2_fixpoint hBL hKL hnd0 hst0
  refine ⟨_, _, update_json_file_stored_eq S dd kws,
    update_json_file_stored_eq (storeFold (json0Of S kws) dd.flatten) dd kws, ?_, ?_, ?_⟩
  · show existingCount (storeFold (json0Of (storeFold (json0Of S kws) dd.flatten) kws)
        dd.flatten) = existingCount (storeFold (json0Of S kws) dd.flatten)
    rw [hfix]
    exact hcnt
  · show ∀ t k, getEntry (storeFold (json0Of (storeFold (json0Of S kws) dd.flatten) kws)
        dd.flatten) t k = getEntry (storeFold (json0Of S kws) dd.flatten) t k
    intro t k
    rw [hfix]
    exact hget t k
  · show (dd.flatten.foldl (updStep false)
        (⟨json0Of (storeFold (json0Of S kws) dd.flatten) kws, 0, []⟩ : UpdRes)).catUpdates = []
    exact hcat

/-- C1 witness: the idempotence theorem applied to the concrete store
`{"ai": {"k1": "r1"}}`, batch `[{"ai": {"k1": "r2", "k2": "r3"}}]` and
keyword list `["ai"]`. -/
theorem update_json_file_idempotent_witness :
    ∃ u1 u2 : UpdOut,
      update_json_file (.stored [("ai".toList, [("k1".toList, "r1".toList)])])
        [[("ai".toList, [("k1".toList, "r2".toList), ("k2".toList, "r3".toList)])]]
        ["ai".toList] false = some u1 ∧
      update_json_file (.stored u1.json)
        [[("ai".toList, [("k1".toList, "r2".toList), ("k2".toList, "r3".toList)])]]
        ["ai".toList] false = some u2 ∧
      existingCount u2.json = existingCount u1.json ∧
      (∀ t k, getEntry u2.json t k = getEntry u1.json t k) ∧
      u2.catUpdates = [] :=
  update_json_file_idempotent [("ai".toList, [("k1".toList, "r1".toList)])]
    [[("ai".toList, [("k1".toList, "r2".toList), ("k2".toList, "r3".toList)])]]
    ["ai".toList] (by decide) (by decide) (by decide)

/-- C4 counterexample: with `clear_existing` false, a MISSING store file
is not treated as an empty store — `open(filename, "r")` has no handler
and raises `FileNotFoundError`, modelled as `none`. -/
theorem update_json_file_missing_raises :
    update_json_file .missing [] [] false = none := rfl

/-- C4 (corrected): with `clear_existing` false, an EMPTY store file is
treated as an empty store, not an error: for every batch and keyword
list, `update_json_file` on the empty file succeeds with existing count
0 and behaves exactly as on a file holding the empty store.  A MISSING
file instead raises (`FileNotFoundError` escapes the unguarded `open`),
contrary to the claim; see the counterexample. -/
theorem update_json_file_empty_file (dd : List Store) (kws : List Str) :
    update_json_file .empty dd kws false = update_json_file (.stored []) dd kws false ∧
    ∃ u : UpdOut, update_json_file .empty dd kws false = some u ∧ u.existing = 0 := by
  refine ⟨rfl, ⟨_, rfl, rfl⟩⟩
